import Mathlib

/-!
# A verification development for the YAG version-control core

This file gives a shallow embedding of the YAG repository core (object
model, tree builder, storage layer and repository orchestration) and
proves properties of the embedded definitions.

Modelling conventions:
* Go byte slices and Go strings are both modelled as `Bytes := List Nat`
  (a Go string is just an immutable byte slice); string literals enter
  the model through `strBytes`, the UTF-8 encoding of a Lean literal.
* Go maps become association lists; iterating over a map corresponds to
  folding over the list, and the unspecified iteration order of a Go map
  is captured by quantifying over permutations of the list.
* `crypto/sha256` is implemented bit-for-bit (as Nat arithmetic with
  explicit `% 2^32` reductions); hashes are hex byte strings.
* `encoding/gob` of tree entries and commit fields is modelled by an
  injective length-prefixed byte encoding with an executable decoder.
* Filesystem I/O always succeeds in the model; the storage state is a
  record of the object files, the ref files under `refs/heads`, the HEAD
  file contents, the parsed index and the working-directory files.
-/

set_option maxRecDepth 100000

set_option maxHeartbeats 4000000

namespace Yag

/-- Byte strings: Go `[]byte` and Go `string` are both byte sequences. -/
abbrev Bytes := List Nat

/-- UTF-8 encoding of a single code point (standard 1-4 byte encoding). -/
def utf8Char (n : Nat) : Bytes :=
  if n < 128 then [n]
  else if n < 2048 then [192 + n / 64, 128 + n % 64]
  else if n < 65536 then [224 + n / 4096, 128 + (n / 64) % 64, 128 + n % 64]
  else [240 + n / 262144, 128 + (n / 4096) % 64, 128 + (n / 64) % 64, 128 + n % 64]

/-- The byte string denoted by a Lean string literal (UTF-8, as in Go). -/
def strBytes (s : String) : Bytes :=
  s.data.flatMap (fun c => utf8Char c.toNat)

/-- Association-list lookup, modelling Go map indexing `m[k]`. -/
def lookupA {β : Type} : List (Bytes × β) → Bytes → Option β
  | [], _ => none
  | (k, v) :: t, k₀ => if k = k₀ then some v else lookupA t k₀

/-- Association-list upsert `m[k] = g m[k]`, modelling a Go map write.
The position chosen for a fresh key is immaterial for a Go map; the model
keeps first-insertion order, and map-iteration nondeterminism is captured
by quantifying over input permutations. -/
def upsertF {β : Type} : List (Bytes × β) → Bytes → (Option β → β) → List (Bytes × β)
  | [], k, g => [(k, g none)]
  | (k', v) :: t, k, g => if k' = k then (k, g (some v)) :: t else (k', v) :: upsertF t k g

/-- `leads s p` models Go `strings.HasPrefix(s, p)`. -/
def leads : Bytes → Bytes → Bool
  | _, [] => true
  | [], _ :: _ => false
  | a :: s, b :: p => a = b && leads s p

/-- Models Go `strings.TrimPrefix(s, p)`: drops `p` only when it leads `s`. -/
def trimPre (s p : Bytes) : Bytes :=
  if leads s p then s.drop p.length else s

/-- Bytewise lexicographic order, modelling Go `string` `<`/`<=`. -/
def lexLe : Bytes → Bytes → Bool
  | [], _ => true
  | _ :: _, [] => false
  | a :: s, b :: t => if a < b then true else if b < a then false else lexLe s t

/-- Split a byte string on a separator byte, keeping empty fields
(`splitSep 47 "a//b" = ["a", "", "b"]`). -/
def splitSep (sep : Nat) : Bytes → List Bytes
  | [] => [[]]
  | b :: t =>
    if b = sep then [] :: splitSep sep t
    else
      match splitSep sep t with
      | [] => [[b]]
      | h :: r => (b :: h) :: r

/-- Join byte strings with a separator byte (inverse of `splitSep`). -/
def joinSep (sep : Nat) : List Bytes → Bytes
  | [] => []
  | [p] => p
  | p :: r => p ++ sep :: joinSep sep r

/-- Little-endian base-10 digits, with fuel bounding the recursion. -/
def decDigitsGo : Nat → Nat → List Nat
  | 0, _ => []
  | fuel + 1, n => if n = 0 then [] else n % 10 :: decDigitsGo fuel (n / 10)

/-- Big-endian decimal digits of `n` as ASCII bytes (Go `%d` for `n ≥ 0`). -/
def decRender (n : Nat) : Bytes :=
  if n = 0 then [48] else (decDigitsGo n n).reverse.map (· + 48)

/-- ASCII decimal digit test. -/
def isDigit (b : Nat) : Bool := 48 ≤ b && b ≤ 57

/-- Byte-level whitespace, as in `fmt` verb scanning. -/
def isWs (b : Nat) : Bool := b = 32 || b = 9 || b = 10 || b = 11 || b = 12 || b = 13

/-- Parse a leading run of decimal digits; `none` when there is none. -/
def parseNatPre (l : Bytes) : Option Nat :=
  let ds := l.takeWhile isDigit
  if ds = [] then none else some (ds.foldl (fun a d => a * 10 + (d - 48)) 0)

/-- Parse a leading optionally-signed decimal integer (the `%d` verb). -/
def parseIntPre (l : Bytes) : Option Int :=
  if l.head? = some 45 then (parseNatPre l.tail).map (fun n => -(n : Int))
  else if l.head? = some 43 then (parseNatPre l.tail).map (fun n => (n : Int))
  else (parseNatPre l).map (fun n => (n : Int))

/- ## SHA-256, modelling `crypto/sha256` -/

/-- 32-bit exclusive or. -/
def xor32 (x y : Nat) : Nat := (x ^^^ y) % 4294967296

/-- 32-bit and. -/
def and32 (x y : Nat) : Nat := (x &&& y) % 4294967296

/-- 32-bit complement (argument assumed reduced mod `2^32`). -/
def not32 (x : Nat) : Nat := 4294967295 - x % 4294967296

/-- 32-bit right rotation by `n`. -/
def rotr32 (n x : Nat) : Nat := x / 2 ^ n + x % 2 ^ n * 2 ^ (32 - n)

/-- Logical right shift. -/
def shr32 (n x : Nat) : Nat := x / 2 ^ n

/-- Addition reduced to 32 bits. -/
def add32 (x y : Nat) : Nat := (x + y) % 4294967296

/-- The SHA-256 round constants. -/
def shaK : List Nat :=
  [1116352408, 1899447441, 3049323471, 3921009573, 961987163, 1508970993,
   2453635748, 2870763221, 3624381080, 310598401, 607225278, 1426881987,
   1925078388, 2162078206, 2614888103, 3248222580, 3835390401, 4022224774,
   264347078, 604807628, 770255983, 1249150122, 1555081692, 1996064986,
   2554220882, 2821834349, 2952996808, 3210313671, 3336571891, 3584528711,
   113926993, 338241895, 666307205, 773529912, 1294757372, 1396182291,
   1695183700, 1986661051, 2177026350, 2456956037, 2730485921, 2820302411,
   3259730800, 3345764771, 3516065817, 3600352804, 4094571909, 275423344,
   430227734, 506948616, 659060556, 883997877, 958139571, 1322822218,
   1537002063, 1747873779, 1955562222, 2024104815, 2227730452, 2361852424,
   2428436474, 2756734187, 3204031479, 3329325298]

/-- The SHA-256 initial hash value. -/
def shaH0 : List Nat :=
  [1779033703, 3144134277, 1013904242, 2773480762,
   1359893119, 2600822924, 528734635, 1541459225]

/-- Big-endian 8-byte rendering of a 64-bit quantity. -/
def be64 (n : Nat) : Bytes :=
  [n / 2 ^ 56 % 256, n / 2 ^ 48 % 256, n / 2 ^ 40 % 256, n / 2 ^ 32 % 256,
   n / 2 ^ 24 % 256, n / 2 ^ 16 % 256, n / 2 ^ 8 % 256, n % 256]

/-- SHA-256 padding: `0x80`, zeros to 56 mod 64, then the bit length. -/
def shaPad (msg : Bytes) : Bytes :=
  msg ++ 128 :: List.replicate ((119 - msg.length % 64) % 64) 0 ++ be64 (8 * msg.length)

/-- Split a byte string into 64-byte blocks. Each step consumes at least
one byte, so the length of the input bounds the recursion. -/
def chunk64Go : Nat → Bytes → List Bytes
  | 0, _ => []
  | _, [] => []
  | fuel + 1, l => l.take 64 :: chunk64Go fuel (l.drop 64)

/-- Split a byte string into 64-byte blocks. -/
def chunk64 (l : Bytes) : List Bytes := chunk64Go l.length l

/-- Big-endian 32-bit words of a block. -/
def blockWords : Bytes → List Nat
  | b0 :: b1 :: b2 :: b3 :: t => (b0 * 16777216 + b1 * 65536 + b2 * 256 + b3) :: blockWords t
  | _ => []

/-- Message-schedule extension: append words 16..63. -/
def shaExtend : Nat → List Nat → List Nat
  | 0, w => w
  | fuel + 1, w =>
    let n := w.length
    let w15 := w.getD (n - 15) 0
    let w2 := w.getD (n - 2) 0
    let s0 := xor32 (xor32 (rotr32 7 w15) (rotr32 18 w15)) (shr32 3 w15)
    let s1 := xor32 (xor32 (rotr32 17 w2) (rotr32 19 w2)) (shr32 10 w2)
    shaExtend fuel (w ++ [add32 (add32 (w.getD (n - 16) 0) s0) (add32 (w.getD (n - 7) 0) s1)])

/-- One SHA-256 round, acting on the working variables `[a,…,h]`. -/
def shaRound (kw : Nat) (v : List Nat) : List Nat :=
  match v with
  | [a, b, c, d, e, f, g, h] =>
    let s1 := xor32 (xor32 (rotr32 6 e) (rotr32 11 e)) (rotr32 25 e)
    let ch := xor32 (and32 e f) (and32 (not32 e) g)
    let t1 := add32 (add32 h s1) (add32 ch kw)
    let s0 := xor32 (xor32 (rotr32 2 a) (rotr32 13 a)) (rotr32 22 a)
    let mj := xor32 (xor32 (and32 a b) (and32 a c)) (and32 b c)
    let t2 := add32 s0 mj
    [add32 t1 t2, a, b, c, add32 d t1, e, f, g]
  | v => v

/-- Compress one block into the running hash state. -/
def shaBlock (st : List Nat) (block : Bytes) : List Nat :=
  let w := shaExtend 48 (blockWords block)
  let v := (List.range 64).foldl
    (fun v i => shaRound (add32 (shaK.getD i 0) (w.getD i 0)) v) st
  (st.zip v).map (fun p => add32 p.1 p.2)

/-- Lowercase hex digit. -/
def hexDigit (n : Nat) : Nat := if n < 10 then 48 + n else 87 + n

/-- Lowercase 8-hex-char rendering of a 32-bit word. -/
def hex32 (w : Nat) : Bytes :=
  [hexDigit (w / 16 ^ 7 % 16), hexDigit (w / 16 ^ 6 % 16), hexDigit (w / 16 ^ 5 % 16),
   hexDigit (w / 16 ^ 4 % 16), hexDigit (w / 16 ^ 3 % 16), hexDigit (w / 16 ^ 2 % 16),
   hexDigit (w / 16 % 16), hexDigit (w % 16)]

/-- `CalculateHash` (core): hex-encoded SHA-256 digest of the data. -/
def CalculateHash (data : Bytes) : Bytes :=
  (((chunk64 (shaPad data)).foldl shaBlock shaH0).map hex32).flatten

/- ## Object model (core package) -/

/-- The three object kinds (`ObjectType` constants in core). -/
inductive ObjectType where
  | blob
  | tree
  | commit
deriving DecidableEq

/-- The byte string of an `ObjectType` ("blob"/"tree"/"commit"). -/
def tyBytes : ObjectType → Bytes
  | .blob => strBytes "blob"
  | .tree => strBytes "tree"
  | .commit => strBytes "commit"

/-- `SerializeObject`: the header `"<type> <decimal-length>\0"` then the payload. -/
def SerializeObject (ty : ObjectType) (data : Bytes) : Bytes :=
  tyBytes ty ++ 32 :: decRender data.length ++ 0 :: data

/-- Split at the first zero byte: `some (before, after)`, or `none` if absent. -/
def splitAtZero : Bytes → Option (Bytes × Bytes)
  | [] => none
  | b :: t =>
    if b = 0 then some ([], t) else (splitAtZero t).map (fun p => (b :: p.1, p.2))

/-- Models `fmt.Sscanf(header, "%s %d", &objType, &size)`: a whitespace-
delimited token, then an optionally-signed decimal; trailing input is
ignored, as for `Sscanf`. -/
def parseHeader (h : Bytes) : Option (Bytes × Int) :=
  let h1 := h.dropWhile isWs
  let tok := h1.takeWhile (fun b => !isWs b)
  if tok = [] then none
  else ((h1.drop tok.length).dropWhile isWs |> parseIntPre).map (fun sz => (tok, sz))

/-- Errors of `DeserializeObject`. -/
inductive DesErr where
  | missingNull
  | badHeader
  | sizeMismatch
deriving DecidableEq

/-- `DeserializeObject`: find the null separator, scan the header, check
the declared length against the payload. -/
def DeserializeObject (raw : Bytes) : Except DesErr (Bytes × Bytes) :=
  match splitAtZero raw with
  | none => .error .missingNull
  | some (hdr, data) =>
    match parseHeader hdr with
    | none => .error .badHeader
    | some (ty, sz) =>
      if (data.length : Int) = sz then .ok (ty, data) else .error .sizeMismatch

/-- A blob: content plus its content-address (`NewBlob` computes the hash
of the typed, length-prefixed encoding). -/
structure Blob where
  content : Bytes
  hash : Bytes
deriving DecidableEq

/-- `NewBlob` (core): hash the serialized form of the content. -/
def NewBlob (content : Bytes) : Blob :=
  ⟨content, CalculateHash (SerializeObject .blob content)⟩

/-- `Blob.Serialize`. -/
def blobSerialize (b : Blob) : Bytes := SerializeObject .blob b.content

/-- `ModeFile = 0100644` (octal). -/
def modeFile : Nat := 33188

/-- `ModeDir = 0040000` (octal). -/
def modeDir : Nat := 16384

/-- A tree entry `{Name, Hash, Mode}`. -/
structure TreeEntry where
  Name : Bytes
  Hash : Bytes
  Mode : Nat
deriving DecidableEq

/-- Insert an entry into a name-sorted list, before the first entry whose
name is `≥` its own. -/
def insEntry (e : TreeEntry) : List TreeEntry → List TreeEntry
  | [] => [e]
  | f :: t => if lexLe e.Name f.Name then e :: f :: t else f :: insEntry e t

/-- `Tree.GetEntries`: a copy of the entries sorted by name, modelling
`sort.Slice` with the `Name < Name` comparator. `sort.Slice` is not
stable, so this insertion sort is exact only on entry lists whose names
are pairwise distinct, where every correct sort produces the one sorted
permutation; hash-determinism statements therefore carry hypotheses
confining them to trees all of whose nodes have pairwise-distinct entry
names. -/
def sortEntries : List TreeEntry → List TreeEntry
  | [] => []
  | e :: t => insEntry e (sortEntries t)

/-- Whether an entry carries the given name. -/
def nameIs (n : Bytes) (e : TreeEntry) : Bool := e.Name = n

/-- Length-prefixed encoding of a byte field (models one gob field). -/
def encB (b : Bytes) : Bytes := decRender b.length ++ 44 :: b

/-- Terminated decimal encoding of a numeric field (models one gob field). -/
def encNat (n : Nat) : Bytes := decRender n ++ [44]

/-- Models `gob.Encode` of one `*TreeEntry`: injective field encoding. -/
def encEntry (e : TreeEntry) : Bytes := encB e.Name ++ encB e.Hash ++ encNat e.Mode

/-- Models `gob.Encode` of the sorted `[]*TreeEntry` slice. -/
def encodeEntries (es : List TreeEntry) : Bytes :=
  encNat es.length ++ es.flatMap encEntry

/-- A tree object: its entries in insertion order (`Tree.entries`). -/
structure Tree where
  entries : List TreeEntry
deriving DecidableEq

/-- `NewTree`. -/
def NewTree : Tree := ⟨[]⟩

/-- `Tree.AddEntry` appends and invalidates the cached hash. -/
def addEntry (t : Tree) (name hash : Bytes) (mode : Nat) : Tree :=
  ⟨t.entries ++ [⟨name, hash, mode⟩]⟩

/-- `Tree.AddFile`. -/
def addFile (t : Tree) (name hash : Bytes) : Tree := addEntry t name hash modeFile

/-- `Tree.AddDirectory`. -/
def addDirectory (t : Tree) (name hash : Bytes) : Tree := addEntry t name hash modeDir

/-- The tree obtained by a sequence of `AddEntry` calls on a fresh tree. -/
def buildTreeFrom (es : List TreeEntry) : Tree :=
  es.foldl (fun t e => addEntry t e.Name e.Hash e.Mode) NewTree

/-- `Tree.Serialize`: gob of the name-sorted entries, with object header. -/
def treeSerialize (t : Tree) : Bytes :=
  SerializeObject .tree (encodeEntries (sortEntries t.entries))

/-- `Tree.ID`: hash of the serialized form (computed on demand). -/
def treeID (t : Tree) : Bytes := CalculateHash (treeSerialize t)

/-- `CommitData`: the encoded fields of a commit. The timestamp is the
ambient clock reading passed to `NewCommit`. -/
structure CommitData where
  TreeHash : Bytes
  ParentHash : Bytes
  Message : Bytes
  Author : Bytes
  Timestamp : Nat
deriving DecidableEq

/-- Models `gob.Encode` of `CommitData`. -/
def encodeCommitData (cd : CommitData) : Bytes :=
  encB cd.TreeHash ++ encB cd.ParentHash ++ encB cd.Message ++ encB cd.Author ++
    encNat cd.Timestamp

/-- `Commit.Serialize`: gob of the data, with object header. -/
def commitSerialize (cd : CommitData) : Bytes :=
  SerializeObject .commit (encodeCommitData cd)

/-- A commit object: data plus its hash. -/
structure CommitObj where
  data : CommitData
  hash : Bytes
deriving DecidableEq

/-- `NewCommit` with the ambient clock reading made explicit. -/
def NewCommit (treeHash parentHash message author : Bytes) (now : Nat) : CommitObj :=
  let cd : CommitData := ⟨treeHash, parentHash, message, author, now⟩
  ⟨cd, CalculateHash (commitSerialize cd)⟩

/-- Decode one length-prefixed byte field; `none` on malformed input. -/
def decB (l : Bytes) : Option (Bytes × Bytes) :=
  match parseNatPre l with
  | none => none
  | some n =>
    match l.drop (l.takeWhile isDigit).length with
    | 44 :: rest => if n ≤ rest.length then some (rest.take n, rest.drop n) else none
    | _ => none

/-- Decode one terminated decimal field. -/
def decNat (l : Bytes) : Option (Nat × Bytes) :=
  match parseNatPre l with
  | none => none
  | some n =>
    match l.drop (l.takeWhile isDigit).length with
    | 44 :: rest => some (n, rest)
    | _ => none

/-- Models `gob.Decode` into a `CommitData` (`DeserializeCommit`, which
afterwards recomputes the hash by re-serializing). -/
def decodeCommitData (l : Bytes) : Option CommitData :=
  match decB l with
  | none => none
  | some (th, l1) =>
    match decB l1 with
    | none => none
    | some (ph, l2) =>
      match decB l2 with
      | none => none
      | some (msg, l3) =>
        match decB l3 with
        | none => none
        | some (au, l4) =>
          match decNat l4 with
          | none => none
          | some (ts, _) => some ⟨th, ph, msg, au, ts⟩

/- ## Lexical path functions (`path/filepath`, unix rules) -/

/-- `filepath.Split`: break after the final separator; the directory part
keeps its trailing slash. -/
def splitB (p : Bytes) : Bytes × Bytes :=
  let f := (p.reverse.takeWhile (fun b => b ≠ 47)).reverse
  (p.take (p.length - f.length), f)

/-- `filepath.Clean` (unix): fold the path elements with the four lexical
rules (drop empty and `.` elements, resolve inner `..`, drop `..` at a
rooted start), then rejoin. -/
def cleanB (p : Bytes) : Bytes :=
  if p = [] then strBytes "." else
  let rooted := p.head? = some 47
  let out := (splitSep 47 p).foldl
    (fun acc c =>
      if c = [] ∨ c = strBytes "." then acc
      else if c = strBytes ".." then
        if acc ≠ [] ∧ acc.getLast? ≠ some (strBytes "..") then acc.dropLast
        else if rooted then acc else acc ++ [strBytes ".."]
      else acc ++ [c]) []
  let body := joinSep 47 out
  if rooted then (if body = [] then strBytes "/" else 47 :: body)
  else (if body = [] then strBytes "." else body)

/-- `filepath.Dir`: clean the part up to and including the final slash
(`Clean("")` is `"."`, matching `Dir` of a slashless path). -/
def fpDir (p : Bytes) : Bytes := cleanB (splitB p).1

/-- `filepath.Base`: strip trailing slashes, then take the last element;
empty input gives `"."` and an all-slash input gives `"/"`. -/
def fpBase (p : Bytes) : Bytes :=
  if p = [] then strBytes "." else
  let q := (p.reverse.dropWhile (fun b => b = 47)).reverse
  if q = [] then strBytes "/" else (q.reverse.takeWhile (fun b => b ≠ 47)).reverse

/- ## `BuildTreeFromPaths` (core/commit.go) -/

/-- The directory key a staged path is grouped under: `Clean` of the
directory part of `Split`, with `"."` replaced by `""`. -/
def dirKeyOf (p : Bytes) : Bytes :=
  let d := cleanB (splitB p).1
  if d = strBytes "." then [] else d

/-- The file-name part of a staged path. -/
def fileOf (p : Bytes) : Bytes := (splitB p).2

/-- The (directory key, file name) pair a staged path contributes. -/
def splitKey (p : Bytes) : Bytes × Bytes := (dirKeyOf p, fileOf p)

/-- One iteration of the grouping loop: file `ph` is added to the inner
map of its directory key (`dirMap[dir][file] = hash`). -/
def dmStep (dm : List (Bytes × List (Bytes × Bytes))) (ph : Bytes × Bytes) :
    List (Bytes × List (Bytes × Bytes)) :=
  upsertF dm (dirKeyOf ph.1) (fun inner =>
    upsertF (inner.getD []) (fileOf ph.1) (fun _ => ph.2))

/-- Phase 1 of `BuildTreeFromPaths`: group the staged files by directory
key (`dirMap`), iterating the input in the given enumeration order. -/
def buildDirMap (l : List (Bytes × Bytes)) : List (Bytes × List (Bytes × Bytes)) :=
  l.foldl dmStep []

/-- The hash of a tree with the given (insertion-ordered) entries. -/
def treeIDE (es : List TreeEntry) : Bytes := treeID ⟨es⟩

/-- The key list of an association list. -/
def keysOf {β : Type} (a : List (Bytes × β)) : List Bytes := a.map Prod.fst

/-- Two-level lookup into the directory map. -/
def lookup2 (dm : List (Bytes × List (Bytes × Bytes))) (d f : Bytes) : Option Bytes :=
  (lookupA dm d).bind (fun inner => lookupA inner f)

/-- The inner file map of a directory key (`dirMap[dir]`, empty if absent). -/
def innerAt (dm : List (Bytes × List (Bytes × Bytes))) (d : Bytes) : List (Bytes × Bytes) :=
  (lookupA dm d).getD []

/-- `processDirs`: the entries of the tree built for `dir` — its direct
files (inner-map order) then its immediate subdirectories (dirMap order),
each subdirectory carrying the hash of its recursively built tree. The
memoization table only caches this pure computation and is dropped; the
recursion is bounded by fuel, which exceeds the recursion depth for the
argument `BuildTreeFromPaths` passes. -/
def processDirs (dm : List (Bytes × List (Bytes × Bytes))) : Nat → Bytes → List TreeEntry
  | 0, _ => []
  | fuel + 1, dir =>
    let files := (innerAt dm dir).map
      (fun fh => (⟨fh.1, fh.2, modeFile⟩ : TreeEntry))
    let subs := dm.filterMap
      (fun dv =>
        if dv.1 ≠ dir ∧ fpDir dv.1 = dir then
          some (⟨fpBase dv.1, treeIDE (processDirs dm fuel dv.1), modeDir⟩ : TreeEntry)
        else none)
    files ++ subs

/-- `BuildTreeFromPaths`: the root tree's entries — one directory entry
(named by its full key) per dirMap key whose `Dir` is `"."`, then the
root-level files. -/
def BuildTreeFromPaths (l : List (Bytes × Bytes)) : Tree :=
  let dm := buildDirMap l
  let fuel := (l.map (fun ph => ph.1.length + 1)).sum + 1
  let rootSubs := dm.filterMap
    (fun dv =>
      if fpDir dv.1 = strBytes "." then
        some (⟨dv.1, treeIDE (processDirs dm fuel dv.1), modeDir⟩ : TreeEntry)
      else none)
  let rootFiles := (innerAt dm []).map
    (fun fh => (⟨fh.1, fh.2, modeFile⟩ : TreeEntry))
  ⟨rootSubs ++ rootFiles⟩

/-- The root hash a call to `BuildTreeFromPaths` produces. -/
def rootID (l : List (Bytes × Bytes)) : Bytes := treeID (BuildTreeFromPaths l)

/-- Decidable equality of `Except` results, for concrete evaluations. -/
instance exceptDecEq {ε α : Type} [DecidableEq ε] [DecidableEq α] :
    DecidableEq (Except ε α) := fun a b =>
  match a, b with
  | .error e, .error f =>
    if h : e = f then isTrue (by rw [h]) else isFalse (fun c => h (by cases c; rfl))
  | .error _, .ok _ => isFalse (fun c => Except.noConfusion c)
  | .ok _, .error _ => isFalse (fun c => Except.noConfusion c)
  | .ok x, .ok y =>
    if h : x = y then isTrue (by rw [h]) else isFalse (fun c => h (by cases c; rfl))

/- ## Storage layer (`FileSystemStorage`) -/

/-- Errors surfaced by the storage and repository layer. -/
inductive Err where
  | ioNotFound
  | deser (e : DesErr)
  | treeUnimpl
  | unknownType
  | commitDecode
  | notACommit
  | refNotFound
  | emptyCommit
  | noCommitsYet
  | pathspecNotFound
deriving DecidableEq

/-- The durable state a repository manipulates: the object files (keyed
by hash), the ref files under `refs/heads`, the HEAD file contents, the
parsed index mapping, and — for `Status` — the working-directory files as
repo-relative path/content pairs (the walk already excludes `.yag`).
I/O itself always succeeds in the model. -/
structure RState where
  objects : List (Bytes × Bytes)
  refs : List (Bytes × Bytes)
  headContent : Bytes
  index : List (Bytes × Bytes)
  workspace : List (Bytes × Bytes)
deriving DecidableEq

/-- A storable object, as handed to `StoreObject` through the `Object`
interface. -/
inductive StoreObj where
  | blobO (b : Blob)
  | treeO (t : Tree)
  | commitO (c : CommitObj)
deriving DecidableEq

/-- `Object.Serialize` of a storable object. -/
def objSerialize : StoreObj → Bytes
  | .blobO b => blobSerialize b
  | .treeO t => treeSerialize t
  | .commitO c => commitSerialize c.data

/-- `Object.ID` of a storable object. -/
def objID : StoreObj → Bytes
  | .blobO b => b.hash
  | .treeO t => treeID t
  | .commitO c => c.hash

/-- `StoreObject`: write the serialized bytes under the object's own ID. -/
def StoreObject (s : RState) (o : StoreObj) : RState :=
  { s with objects := upsertF s.objects (objID o) (fun _ => objSerialize o) }

/-- `HasObject`: a stat of the object file. -/
def HasObject (s : RState) (hash : Bytes) : Bool :=
  (lookupA s.objects hash).isSome

/-- An object as returned by `GetObject` (`core.Object` values). -/
inductive LoadedObj where
  | blobO (b : Blob)
  | commitO (c : CommitObj)
deriving DecidableEq

/-- `GetObject`: read the file, deserialize, and rebuild the typed object.
Tree deserialization is unimplemented (`TODO` in the source) and commit
deserialization recomputes the hash from the re-encoded data. -/
def GetObject (s : RState) (hash : Bytes) : Except Err LoadedObj :=
  match lookupA s.objects hash with
  | none => .error .ioNotFound
  | some raw =>
    match DeserializeObject raw with
    | .error e => .error (.deser e)
    | .ok (ty, data) =>
      if ty = strBytes "blob" then .ok (.blobO (NewBlob data))
      else if ty = strBytes "tree" then .error .treeUnimpl
      else if ty = strBytes "commit" then
        match decodeCommitData data with
        | none => .error .commitDecode
        | some cd => .ok (.commitO ⟨cd, CalculateHash (commitSerialize cd)⟩)
      else .error .unknownType

/-- `UpdateRef`: write the commit hash into the ref file. -/
def UpdateRef (s : RState) (name hash : Bytes) : RState :=
  { s with refs := upsertF s.refs name (fun _ => hash) }

/-- `GetRef`: read the ref file; `RefNotFound` when absent. -/
def GetRef (s : RState) (name : Bytes) : Except Err Bytes :=
  match lookupA s.refs name with
  | none => .error .refNotFound
  | some h => .ok h

/-- `GetHead`: the branch name when HEAD is symbolic (strip the
`"ref: refs/heads/"` lead, exactly as `strings.TrimPrefix` does), the
empty string when detached. -/
def GetHead (s : RState) : Bytes :=
  if leads s.headContent (strBytes "ref: ") then
    trimPre s.headContent (strBytes "ref: refs/heads/")
  else []

/-- `SetHead`: point HEAD symbolically at a branch. -/
def SetHead (s : RState) (ref : Bytes) : RState :=
  { s with headContent := strBytes "ref: refs/heads/" ++ ref }

/-- Load a commit by hash (tail of `GetHeadCommit`): errors propagate and
a non-commit object is rejected. -/
def loadCommit (s : RState) (hash : Bytes) : Except Err (Option CommitObj) :=
  match GetObject s hash with
  | .error e => .error e
  | .ok (.blobO _) => .error .notACommit
  | .ok (.commitO c) => .ok (some c)

/-- `GetHeadCommit`: resolve the symbolic layer. A missing branch file
means "branch exists but has no commits" (`ok none`). The model only
materializes ref files under `refs/heads/`; a symbolic HEAD naming a path
outside it reads an absent file, which is also the `ok none` case. -/
def GetHeadCommit (s : RState) : Except Err (Option CommitObj) :=
  if leads s.headContent (strBytes "ref: ") then
    let bp := trimPre s.headContent (strBytes "ref: ")
    if leads bp (strBytes "refs/heads/") then
      match lookupA s.refs (bp.drop (strBytes "refs/heads/").length) with
      | none => .ok none
      | some h => loadCommit s h
    else .ok none
  else loadCommit s s.headContent

/-- `GetIndexEntries`: the index file always exists and parses in the
model (the storage layer writes it wholesale). -/
def GetIndexEntries (s : RState) : List (Bytes × Bytes) := s.index

/-- `UpdateIndexEntries`: replace the index wholesale. -/
def UpdateIndexEntries (s : RState) (entries : List (Bytes × Bytes)) : RState :=
  { s with index := entries }

/-- `ClearIndex`: write an empty mapping. -/
def ClearIndex (s : RState) : RState := { s with index := [] }

/- ## Repository orchestration (`repository.go`) -/

/-- `Repository.Commit` with the ambient identity and clock made explicit
parameters. Returns the result and the state after the call. -/
def CommitR (s : RState) (message author : Bytes) (now : Nat) :
    Except Err Bytes × RState :=
  let stagedFiles := GetIndexEntries s
  if stagedFiles.length = 0 then (.error .emptyCommit, s)
  else
    let tree := BuildTreeFromPaths stagedFiles
    let s1 := StoreObject s (.treeO tree)
    let parentHash :=
      match GetHeadCommit s1 with
      | .ok (some c) => c.hash
      | _ => []
    let commit := NewCommit (treeID tree) parentHash message author now
    let s2 := StoreObject s1 (.commitO commit)
    let head := GetHead s2
    let s3 := UpdateRef s2 head commit.hash
    let s4 := ClearIndex s3
    (.ok commit.hash, s4)

/-- `Repository.CreateBranch`. -/
def CreateBranch (s : RState) (name : Bytes) : Except Err Unit × RState :=
  match GetHeadCommit s with
  | .error e => (.error e, s)
  | .ok none => (.error .noCommitsYet, s)
  | .ok (some c) => (.ok (), UpdateRef s name c.hash)

/-- `Repository.Checkout`. -/
def Checkout (s : RState) (branchName : Bytes) : Except Err Unit × RState :=
  match GetRef s branchName with
  | .error _ => (.error .refNotFound, s)
  | .ok _ => (.ok (), SetHead s branchName)

/-- The result of `Repository.Status`; the Go maps of paths become lists
of paths (a path is in the reported class iff it is in the list). -/
structure RStatus where
  staged : List Bytes
  unstaged : List Bytes
  untracked : List Bytes
deriving DecidableEq

/-- `Repository.Status`: walk the working files; a file absent from the
index is untracked, one whose live content hashes differently from its
index entry is unstaged; every indexed path is reported staged. -/
def StatusR (s : RState) : RStatus :=
  let indexEntries := GetIndexEntries s
  ⟨indexEntries.map Prod.fst,
   s.workspace.filterMap
     (fun fc =>
       match lookupA indexEntries fc.1 with
       | some ih => if (NewBlob fc.2).hash ≠ ih then some fc.1 else none
       | none => none),
   s.workspace.filterMap
     (fun fc => if (lookupA indexEntries fc.1).isNone then some fc.1 else none)⟩

/-- `Repository.Unstage`, taking the already repo-relative path (the
`Abs`/`Rel` round trip canonicalizes the argument). On a hit, the entry
is deleted from the mapping and the index rewritten wholesale. -/
def Unstage (s : RState) (relPath : Bytes) : Except Err Unit × RState :=
  let indexEntries := GetIndexEntries s
  match lookupA indexEntries relPath with
  | none => (.error .pathspecNotFound, s)
  | some _ =>
    (.ok (), UpdateIndexEntries s (indexEntries.filter (fun kv => kv.1 ≠ relPath)))

/- ## General list helpers -/

theorem takeWhile_append_all {p : Nat → Bool} {xs : Bytes} (ys : Bytes)
    (h : ∀ x ∈ xs, p x = true) :
    (xs ++ ys).takeWhile p = xs ++ ys.takeWhile p := by
  induction xs with
  | nil => simp
  | cons a t ih =>
    have ha : p a = true := h a (by simp)
    simp [List.takeWhile, ha, ih (fun x hx => h x (by simp [hx]))]

theorem takeWhile_head_false {p : Nat → Bool} {ys : Bytes}
    (h : ∀ b, ys.head? = some b → p b = false) : ys.takeWhile p = [] := by
  cases ys with
  | nil => rfl
  | cons a t => simp [List.takeWhile, h a rfl]

theorem dropWhile_head_false {p : Nat → Bool} {ys : Bytes}
    (h : ∀ b, ys.head? = some b → p b = false) : ys.dropWhile p = ys := by
  cases ys with
  | nil => rfl
  | cons a t => simp [List.dropWhile, h a rfl]

/- ## Decimal rendering and scanning -/

theorem decDigitsGo_eq_digits : ∀ fuel n, n ≤ fuel → decDigitsGo fuel n = Nat.digits 10 n := by
  intro fuel
  induction fuel with
  | zero =>
    intro n hn
    have : n = 0 := Nat.le_zero.mp hn
    simp [this, decDigitsGo]
  | succ f ih =>
    intro n hn
    by_cases h0 : n = 0
    · simp [h0, decDigitsGo]
    · rw [decDigitsGo, if_neg h0, Nat.digits_def' (by norm_num : 1 < 10) (Nat.pos_of_ne_zero h0),
        ih (n / 10) (by omega)]

theorem decRender_eq (n : Nat) :
    decRender n = if n = 0 then [48] else (Nat.digits 10 n).reverse.map (· + 48) := by
  unfold decRender
  by_cases h0 : n = 0
  · simp [h0]
  · rw [if_neg h0, if_neg h0, decDigitsGo_eq_digits n n (Nat.le_refl n)]

theorem decRender_mem {n d : Nat} (h : d ∈ decRender n) : 48 ≤ d ∧ d ≤ 57 := by
  rw [decRender_eq] at h
  by_cases h0 : n = 0
  · simp [h0] at h; omega
  · simp [h0] at h
    obtain ⟨x, hx, hd⟩ := h
    have := Nat.digits_lt_base (b := 10) (by norm_num) hx
    omega

theorem decRender_digit {n d : Nat} (h : d ∈ decRender n) : isDigit d = true := by
  have := decRender_mem h
  simp [isDigit]; omega

theorem decRender_ne_nil (n : Nat) : decRender n ≠ [] := by
  rw [decRender_eq]
  by_cases h0 : n = 0
  · simp [h0]
  · simp [h0, Nat.digits_ne_nil_iff_ne_zero]

theorem foldl_digits (l : List Nat) (a : Nat) :
    (l.map (· + 48)).foldl (fun acc d => acc * 10 + (d - 48)) a =
      a * 10 ^ l.length + Nat.ofDigits 10 l.reverse := by
  induction l generalizing a with
  | nil => simp [Nat.ofDigits]
  | cons d t ih =>
    simp only [List.map_cons, List.foldl_cons, List.reverse_cons, List.length_cons]
    rw [ih, Nat.ofDigits_append]
    have : d + 48 - 48 = d := by omega
    rw [this]
    simp [Nat.ofDigits]
    ring

theorem parseNatPre_decRender (n : Nat) (rest : Bytes)
    (hrest : ∀ b, rest.head? = some b → isDigit b = false) :
    parseNatPre (decRender n ++ rest) = some n := by
  simp only [parseNatPre]
  rw [takeWhile_append_all rest (fun x hx => decRender_digit hx),
    takeWhile_head_false hrest, List.append_nil, if_neg (decRender_ne_nil n)]
  rw [decRender_eq]
  by_cases h0 : n = 0
  · simp [h0]
  · rw [if_neg h0]
    have := foldl_digits (Nat.digits 10 n).reverse 0
    simp only [List.reverse_reverse, Nat.ofDigits_digits] at this
    rw [this]
    simp

theorem parseIntPre_decRender (n : Nat) (rest : Bytes)
    (hrest : ∀ b, rest.head? = some b → isDigit b = false) :
    parseIntPre (decRender n ++ rest) = some (n : Int) := by
  have hne := decRender_ne_nil n
  obtain ⟨d, ds, hds⟩ : ∃ d ds, decRender n = d :: ds := by
    cases h : decRender n with
    | nil => exact absurd h hne
    | cons d ds => exact ⟨d, ds, rfl⟩
  have hd : 48 ≤ d ∧ d ≤ 57 := decRender_mem (by rw [hds]; simp)
  unfold parseIntPre
  rw [hds]
  have h45 : ¬ ((d :: ds ++ rest).head? = some 45) := by simp; omega
  have h43 : ¬ ((d :: ds ++ rest).head? = some 43) := by simp; omega
  rw [if_neg h45, if_neg h43, ← hds, parseNatPre_decRender n rest hrest]
  rfl

/- ## Scanning well-formed object headers -/

theorem parseHeader_wf (tok : Bytes) (n : Nat) (htok : tok ≠ [])
    (hws : ∀ b ∈ tok, isWs b = false) :
    parseHeader (tok ++ 32 :: decRender n) = some (tok, (n : Int)) := by
  obtain ⟨c, cs, hcs⟩ : ∃ c cs, tok = c :: cs := by
    cases h : tok with
    | nil => exact absurd h htok
    | cons c cs => exact ⟨c, cs, rfl⟩
  have hdw : (tok ++ 32 :: decRender n).dropWhile isWs = tok ++ 32 :: decRender n := by
    apply dropWhile_head_false
    intro b hb
    rw [hcs] at hb; simp at hb
    exact hb ▸ hws c (by rw [hcs]; simp)
  have htw : (tok ++ 32 :: decRender n).takeWhile (fun b => !isWs b) = tok := by
    rw [takeWhile_append_all _ (fun x hx => by simp [hws x hx])]
    have h32 : (32 :: decRender n).takeWhile (fun b => !isWs b) = [] := by
      apply takeWhile_head_false
      intro b hb; simp at hb; simp [hb, isWs]
    rw [h32, List.append_nil]
  simp only [parseHeader]
  rw [hdw, htw, if_neg htok, List.drop_left]
  have : (32 :: decRender n).dropWhile isWs = decRender n := by
    have h32 : isWs 32 = true := by simp [isWs]
    simp only [List.dropWhile, h32]
    apply dropWhile_head_false
    intro b hb
    have : b ∈ decRender n := by
      cases h : decRender n with
      | nil => rw [h] at hb; simp at hb
      | cons x xs => rw [h] at hb; simp at hb; simp [h, hb]
    have := decRender_mem this
    simp [isWs]; omega
  rw [this]
  have := parseIntPre_decRender n [] (by intro b hb; simp at hb)
  rw [List.append_nil] at this
  simp [this]

theorem splitAtZero_append (xs rest : Bytes) (h : 0 ∉ xs) :
    splitAtZero (xs ++ 0 :: rest) = some (xs, rest) := by
  induction xs with
  | nil => simp [splitAtZero]
  | cons a t ih =>
    have ha : a ≠ 0 := fun hc => h (by simp [hc])
    have ih' := ih (fun hc => h (by simp [hc]))
    simp [splitAtZero, ha, ih']

theorem tyBytes_props (ty : ObjectType) :
    tyBytes ty ≠ [] ∧ (∀ b ∈ tyBytes ty, isWs b = false) ∧ 0 ∉ tyBytes ty := by
  cases ty <;> exact ⟨by decide, by decide, by decide⟩

theorem deserialize_serialize (ty : ObjectType) (data : Bytes) :
    DeserializeObject (SerializeObject ty data) = .ok (tyBytes ty, data) := by
  obtain ⟨hne, hws, hz⟩ := tyBytes_props ty
  have hdr0 : 0 ∉ tyBytes ty ++ 32 :: decRender data.length := by
    intro hc
    rcases List.mem_append.mp hc with h | h
    · exact hz h
    · rcases List.mem_cons.mp h with h | h
      · exact absurd h.symm (by norm_num)
      · have := decRender_mem h; omega
  have hser : SerializeObject ty data =
      (tyBytes ty ++ 32 :: decRender data.length) ++ 0 :: data := by
    simp [SerializeObject]
  rw [hser]
  unfold DeserializeObject
  rw [splitAtZero_append _ _ hdr0]
  simp only
  rw [parseHeader_wf (tyBytes ty) data.length hne hws]
  simp

/-- C6: blob construction hashes the typed, length-prefixed encoding of
the content — a pure function of the bytes — and decoding the encoding of
a blob yields type `blob` and exactly the original payload. -/
theorem blob_hash_roundtrip (C : Bytes) :
    (NewBlob C).hash = CalculateHash (SerializeObject .blob C) ∧
    (NewBlob C).content = C ∧
    DeserializeObject (blobSerialize (NewBlob C)) = .ok (strBytes "blob", C) := by
  refine ⟨rfl, rfl, ?_⟩
  have := deserialize_serialize .blob C
  simpa [blobSerialize, NewBlob, tyBytes] using this

theorem lookupA_upsertF_self {β : Type} (a : List (Bytes × β)) (k : Bytes)
    (g : Option β → β) : lookupA (upsertF a k g) k = some (g (lookupA a k)) := by
  induction a with
  | nil => simp [upsertF, lookupA]
  | cons kv t ih =>
    by_cases hk : kv.1 = k
    · simp [upsertF, hk, lookupA]
    · simp [upsertF, hk, lookupA, ih]

theorem lookupA_upsertF_other {β : Type} (a : List (Bytes × β)) (k k' : Bytes)
    (g : Option β → β) (h : k' ≠ k) : lookupA (upsertF a k g) k' = lookupA a k' := by
  have hkk : ¬(k = k') := fun hc => h (Eq.symm hc)
  induction a with
  | nil => simp [upsertF, lookupA, hkk]
  | cons kv t ih =>
    by_cases hk : kv.1 = k
    · simp [upsertF, hk, lookupA, hkk]
    · by_cases hk' : kv.1 = k'
      · simp [upsertF, hk, lookupA, hk', h]
      · simp [upsertF, hk, lookupA, hk', ih]

theorem lookupA_filter_self {β : Type} (a : List (Bytes × β)) (p : Bytes) :
    lookupA (a.filter (fun kv => kv.1 ≠ p)) p = none := by
  induction a with
  | nil => rfl
  | cons kv t ih =>
    by_cases hk : kv.1 = p
    · simpa [List.filter_cons, hk] using ih
    · simpa [List.filter_cons, hk, lookupA] using ih

theorem lookupA_filter_other {β : Type} (a : List (Bytes × β)) (p q : Bytes)
    (h : q ≠ p) : lookupA (a.filter (fun kv => kv.1 ≠ p)) q = lookupA a q := by
  have hpq : ¬(p = q) := fun hc => h (Eq.symm hc)
  induction a with
  | nil => rfl
  | cons kv t ih =>
    by_cases hk : kv.1 = p
    · simpa [List.filter_cons, hk, lookupA, hpq] using ih
    · by_cases hq : kv.1 = q
      · simp [List.filter_cons, hk, lookupA, hq, h]
      · simpa [List.filter_cons, hk, lookupA, hq] using ih

/- ## C10: Unstage -/

/-- C10: unstaging an unindexed path fails with `PathspecNotFound` and
returns the state entirely unchanged; unstaging an indexed path removes
exactly that entry, preserving every other index entry and every other
component of the repository state. -/
theorem unstage_contract (s : RState) (p : Bytes) :
    (lookupA s.index p = none → Unstage s p = (.error .pathspecNotFound, s)) ∧
    (∀ h, lookupA s.index p = some h →
      (Unstage s p).1 = .ok () ∧
      lookupA ((Unstage s p).2).index p = none ∧
      (∀ q, q ≠ p → lookupA ((Unstage s p).2).index q = lookupA s.index q) ∧
      ((Unstage s p).2).objects = s.objects ∧
      ((Unstage s p).2).refs = s.refs ∧
      ((Unstage s p).2).headContent = s.headContent ∧
      ((Unstage s p).2).workspace = s.workspace) := by
  constructor
  · intro hnone
    simp [Unstage, GetIndexEntries, hnone]
  · intro h hsome
    refine ⟨?_, ?_, ?_, ?_, ?_, ?_, ?_⟩
    · simp [Unstage, GetIndexEntries, hsome]
    · simpa [Unstage, GetIndexEntries, hsome, UpdateIndexEntries] using
        lookupA_filter_self s.index p
    · intro q hq
      simpa [Unstage, GetIndexEntries, hsome, UpdateIndexEntries] using
        lookupA_filter_other s.index p q hq
    · simp [Unstage, GetIndexEntries, hsome, UpdateIndexEntries]
    · simp [Unstage, GetIndexEntries, hsome, UpdateIndexEntries]
    · simp [Unstage, GetIndexEntries, hsome, UpdateIndexEntries]
    · simp [Unstage, GetIndexEntries, hsome, UpdateIndexEntries]

/-- C10 witness: both branches at a concrete one-entry index. -/
theorem unstage_contract_wit :
    Unstage ⟨[], [], [], [(strBytes "a.txt", strBytes "h1")], []⟩ (strBytes "zz") =
      (.error .pathspecNotFound, ⟨[], [], [], [(strBytes "a.txt", strBytes "h1")], []⟩) ∧
    (Unstage ⟨[], [], [], [(strBytes "a.txt", strBytes "h1")], []⟩ (strBytes "a.txt")).1 =
      .ok () ∧
    lookupA ((Unstage ⟨[], [], [], [(strBytes "a.txt", strBytes "h1")], []⟩
      (strBytes "a.txt")).2).index (strBytes "a.txt") = none := by
  refine ⟨(unstage_contract _ _).1 (by decide), ?_, ?_⟩
  · exact ((unstage_contract _ _).2 (strBytes "h1") (by decide)).1
  · exact ((unstage_contract _ _).2 (strBytes "h1") (by decide)).2.1

/- ## C3: trees can be stored but never loaded back -/

/-- C3: any stored bytes that deserialize to type `tree` make `GetObject`
fail (tree deserialization is unimplemented), while `StoreObject` happily
persists a tree and `HasObject` then reports it present; in particular a
freshly stored tree can never be retrieved. -/
theorem tree_get_always_fails (s : RState) (hash raw d : Bytes) (t : Tree) :
    (lookupA s.objects hash = some raw →
      DeserializeObject raw = .ok (strBytes "tree", d) →
      GetObject s hash = .error .treeUnimpl) ∧
    (HasObject (StoreObject s (.treeO t)) (treeID t) = true ∧
      GetObject (StoreObject s (.treeO t)) (treeID t) = .error .treeUnimpl) := by
  have hget : ∀ (s' : RState) (h' raw' d' : Bytes), lookupA s'.objects h' = some raw' →
      DeserializeObject raw' = .ok (strBytes "tree", d') →
      GetObject s' h' = .error .treeUnimpl := by
    intro s' h' raw' d' hl hd
    have hbt : ¬(strBytes "tree" = strBytes "blob") := by decide
    unfold GetObject
    rw [hl]
    simp only
    rw [hd]
    simp only
    rw [if_neg hbt]
    simp
  constructor
  · exact hget s hash raw d
  · have hlook : lookupA (StoreObject s (.treeO t)).objects (treeID t) =
        some (treeSerialize t) := by
      simpa [StoreObject, objID, objSerialize] using
        lookupA_upsertF_self s.objects (treeID t) (fun _ => treeSerialize t)
    constructor
    · simp [HasObject, hlook]
    · exact hget _ _ _ (encodeEntries (sortEntries t.entries)) hlook
        (by simpa [treeSerialize] using
          deserialize_serialize .tree (encodeEntries (sortEntries t.entries)))

/-- C3 witness: a concrete empty tree is stored, reported present, and
unretrievable. -/
theorem tree_get_always_fails_wit :
    HasObject (StoreObject ⟨[], [], [], [], []⟩ (.treeO ⟨[]⟩)) (treeID ⟨[]⟩) = true ∧
    GetObject (StoreObject ⟨[], [], [], [], []⟩ (.treeO ⟨[]⟩)) (treeID ⟨[]⟩) =
      .error .treeUnimpl := by
  exact (tree_get_always_fails ⟨[], [], [], [], []⟩ [] [] [] ⟨[]⟩).2

/- ## Prefix and field-decoding lemmas -/

theorem leads_append (p x : Bytes) : leads (p ++ x) p = true := by
  induction p with
  | nil => cases x <;> rfl
  | cons a t ih => simp [leads, ih]

theorem trimPre_append (p x : Bytes) : trimPre (p ++ x) p = x := by
  simp [trimPre, leads_append, List.drop_left]

theorem decB_enc (s rest : Bytes) : decB (encB s ++ rest) = some (s, rest) := by
  have hform : encB s ++ rest = decRender s.length ++ 44 :: (s ++ rest) := by
    simp [encB]
  have hhead : ∀ b : Nat, (44 :: (s ++ rest)).head? = some b → isDigit b = false := by
    intro b hb; simp at hb; simp [← hb, isDigit]
  have htake : (decRender s.length ++ 44 :: (s ++ rest)).takeWhile isDigit =
      decRender s.length := by
    rw [takeWhile_append_all _ (fun x hx => decRender_digit hx),
      takeWhile_head_false hhead, List.append_nil]
  rw [hform]
  unfold decB
  rw [parseNatPre_decRender s.length (44 :: (s ++ rest)) hhead]
  simp only [htake]
  rw [List.drop_left]
  simp only
  rw [if_pos (by simp [List.length_append])]
  rw [List.take_left, List.drop_left]

theorem decNat_enc (n : Nat) (rest : Bytes) : decNat (encNat n ++ rest) = some (n, rest) := by
  have hform : encNat n ++ rest = decRender n ++ 44 :: rest := by
    simp [encNat]
  have hhead : ∀ b : Nat, (44 :: rest).head? = some b → isDigit b = false := by
    intro b hb; simp at hb; simp [← hb, isDigit]
  have htake : (decRender n ++ 44 :: rest).takeWhile isDigit = decRender n := by
    rw [takeWhile_append_all _ (fun x hx => decRender_digit hx),
      takeWhile_head_false hhead, List.append_nil]
  rw [hform]
  unfold decNat
  rw [parseNatPre_decRender n (44 :: rest) hhead]
  simp only [htake]
  rw [List.drop_left]

theorem decodeCommitData_enc (cd : CommitData) :
    decodeCommitData (encodeCommitData cd) = some cd := by
  have h5 : decNat (encNat cd.Timestamp) = some (cd.Timestamp, []) := by
    have := decNat_enc cd.Timestamp []
    rwa [List.append_nil] at this
  unfold decodeCommitData encodeCommitData
  rw [show encB cd.TreeHash ++ encB cd.ParentHash ++ encB cd.Message ++ encB cd.Author ++
      encNat cd.Timestamp =
      encB cd.TreeHash ++ (encB cd.ParentHash ++ (encB cd.Message ++ (encB cd.Author ++
      encNat cd.Timestamp))) by simp [List.append_assoc]]
  rw [decB_enc]
  simp only
  rw [decB_enc]
  simp only
  rw [decB_enc]
  simp only
  rw [decB_enc]
  simp only
  rw [h5]

/- ## C8: Commit -/

/-- C8: `Commit` returns the `EmptyCommit` error exactly when the index
is empty; on success the ref that HEAD currently targets now holds the
returned commit hash, and the index has been wholly cleared (the working
directory is untouched). -/
theorem commit_contract (s : RState) (message author : Bytes) (now : Nat) :
    ((CommitR s message author now).1 = .error .emptyCommit ↔ s.index = []) ∧
    (∀ h, (CommitR s message author now).1 = .ok h →
      lookupA ((CommitR s message author now).2).refs (GetHead s) = some h ∧
      ((CommitR s message author now).2).index = [] ∧
      ((CommitR s message author now).2).workspace = s.workspace) := by
  by_cases hlen : (GetIndexEntries s).length = 0
  · have hnil : s.index = [] := List.length_eq_zero.mp hlen
    constructor
    · exact ⟨fun _ => hnil, fun _ => by simp [CommitR, GetIndexEntries, hnil]⟩
    · intro h hok
      rw [show CommitR s message author now = (.error .emptyCommit, s) by
        simp [CommitR, GetIndexEntries, hnil]] at hok
      exact absurd hok (by simp)
  · have hne : ¬s.index = [] := fun hc => hlen (by simp [GetIndexEntries, hc])
    have hred : CommitR s message author now =
        (.ok (NewCommit (treeID (BuildTreeFromPaths s.index))
            (match GetHeadCommit (StoreObject s (.treeO (BuildTreeFromPaths s.index))) with
             | .ok (some c) => c.hash
             | _ => []) message author now).hash,
          ClearIndex (UpdateRef
            (StoreObject (StoreObject s (.treeO (BuildTreeFromPaths s.index)))
              (.commitO (NewCommit (treeID (BuildTreeFromPaths s.index))
                (match GetHeadCommit (StoreObject s (.treeO (BuildTreeFromPaths s.index))) with
                 | .ok (some c) => c.hash
                 | _ => []) message author now)))
            (GetHead (StoreObject (StoreObject s (.treeO (BuildTreeFromPaths s.index)))
              (.commitO (NewCommit (treeID (BuildTreeFromPaths s.index))
                (match GetHeadCommit (StoreObject s (.treeO (BuildTreeFromPaths s.index))) with
                 | .ok (some c) => c.hash
                 | _ => []) message author now))))
            (NewCommit (treeID (BuildTreeFromPaths s.index))
              (match GetHeadCommit (StoreObject s (.treeO (BuildTreeFromPaths s.index))) with
               | .ok (some c) => c.hash
               | _ => []) message author now).hash)) := by
      simp [CommitR, GetIndexEntries, hne]
    constructor
    · constructor
      · intro hc
        rw [hred] at hc
        exact absurd hc (by simp)
      · intro hc
        exact absurd hc hne
    · intro h hok
      rw [hred] at hok
      have hh : h = (NewCommit (treeID (BuildTreeFromPaths s.index))
          (match GetHeadCommit (StoreObject s (.treeO (BuildTreeFromPaths s.index))) with
           | .ok (some c) => c.hash
           | _ => []) message author now).hash := by
        have := hok
        simp at this
        exact this.symm
      rw [hred]
      refine ⟨?_, rfl, rfl⟩
      have hhead : GetHead (StoreObject (StoreObject s (.treeO (BuildTreeFromPaths s.index)))
          (.commitO (NewCommit (treeID (BuildTreeFromPaths s.index))
            (match GetHeadCommit (StoreObject s (.treeO (BuildTreeFromPaths s.index))) with
             | .ok (some c) => c.hash
             | _ => []) message author now))) = GetHead s := by
        simp [GetHead, StoreObject]
      simp only [ClearIndex, UpdateRef, hhead, hh]
      exact lookupA_upsertF_self _ _ _

/-- C8 witness: both commit branches at concrete states. -/
theorem commit_contract_wit :
    (CommitR ⟨[], [], strBytes "ref: refs/heads/master", [], []⟩ (strBytes "m")
        (strBytes "a") 0).1 = .error .emptyCommit ∧
    lookupA ((CommitR ⟨[], [], strBytes "ref: refs/heads/master",
        [(strBytes "f.txt", strBytes "h1")], []⟩ (strBytes "m") (strBytes "a") 0).2).refs
      (GetHead ⟨[], [], strBytes "ref: refs/heads/master",
        [(strBytes "f.txt", strBytes "h1")], []⟩) =
      ((CommitR ⟨[], [], strBytes "ref: refs/heads/master",
        [(strBytes "f.txt", strBytes "h1")], []⟩ (strBytes "m") (strBytes "a") 0).1).toOption ∧
    ((CommitR ⟨[], [], strBytes "ref: refs/heads/master",
        [(strBytes "f.txt", strBytes "h1")], []⟩ (strBytes "m") (strBytes "a") 0).2).index =
      [] := by
  refine ⟨(commit_contract _ _ _ _).1.mpr rfl, ?_, ?_⟩
  · obtain ⟨h, hh⟩ : ∃ h, (CommitR ⟨[], [], strBytes "ref: refs/heads/master",
        [(strBytes "f.txt", strBytes "h1")], []⟩ (strBytes "m") (strBytes "a") 0).1 =
        .ok h := ⟨_, rfl⟩
    rw [hh]
    exact (((commit_contract _ _ _ _).2 h hh).1).trans rfl
  · obtain ⟨h, hh⟩ : ∃ h, (CommitR ⟨[], [], strBytes "ref: refs/heads/master",
        [(strBytes "f.txt", strBytes "h1")], []⟩ (strBytes "m") (strBytes "a") 0).1 =
        .ok h := ⟨_, rfl⟩
    exact ((commit_contract _ _ _ _).2 h hh).2.1

/- ## C9: CreateBranch -/

/-- C9: with HEAD symbolically at branch `b`, `CreateBranch` fails with
`NoCommitsYet` when the branch has no commit yet (leaving the whole state,
HEAD included, unchanged), and otherwise creates a ref named `name`
holding the commit hash HEAD resolves to, leaving HEAD and everything
else untouched. -/
theorem createbranch_contract (s : RState) (b name : Bytes)
    (hhead : s.headContent = strBytes "ref: refs/heads/" ++ b) :
    (lookupA s.refs b = none → CreateBranch s name = (.error .noCommitsYet, s)) ∧
    (∀ h cd, lookupA s.refs b = some h →
      lookupA s.objects h = some (commitSerialize cd) →
      CalculateHash (commitSerialize cd) = h →
      (CreateBranch s name).1 = .ok () ∧
      ((CreateBranch s name).2).headContent = s.headContent ∧
      lookupA ((CreateBranch s name).2).refs name = some h ∧
      ((CreateBranch s name).2).objects = s.objects ∧
      ((CreateBranch s name).2).index = s.index ∧
      ((CreateBranch s name).2).workspace = s.workspace) := by
  have hsplit : strBytes "ref: refs/heads/" = strBytes "ref: " ++ strBytes "refs/heads/" := by
    decide
  have h1 : leads s.headContent (strBytes "ref: ") = true := by
    rw [hhead, hsplit, List.append_assoc]
    exact leads_append _ _
  have h2 : trimPre s.headContent (strBytes "ref: ") = strBytes "refs/heads/" ++ b := by
    rw [hhead, hsplit, List.append_assoc, trimPre_append]
  have h3 : leads (strBytes "refs/heads/" ++ b) (strBytes "refs/heads/") = true :=
    leads_append _ _
  have h4 : (strBytes "refs/heads/" ++ b).drop (strBytes "refs/heads/").length = b :=
    List.drop_left _ _
  have hghc : GetHeadCommit s = (match lookupA s.refs b with
      | none => .ok none
      | some h => loadCommit s h) := by
    simp only [GetHeadCommit, h1, h2, h3, h4, if_true]
  constructor
  · intro hnone
    rw [hnone] at hghc
    simp [CreateBranch, hghc]
  · intro h cd hsome hobj hch
    rw [hsome] at hghc
    have hghc2 : GetHeadCommit s = loadCommit s h := by rw [hghc]
    have hload : loadCommit s h = .ok (some ⟨cd, h⟩) := by
      have hdes : DeserializeObject (commitSerialize cd) =
          .ok (strBytes "commit", encodeCommitData cd) := by
        simpa [commitSerialize, tyBytes] using
          deserialize_serialize .commit (encodeCommitData cd)
      have hcb : ¬(strBytes "commit" = strBytes "blob") := by decide
      have hct : ¬(strBytes "commit" = strBytes "tree") := by decide
      unfold loadCommit GetObject
      rw [hobj]
      simp only
      rw [hdes]
      simp only
      rw [if_neg hcb, if_neg hct]
      simp only [if_true]
      rw [decodeCommitData_enc cd]
      simp [hch]
    rw [hload] at hghc2
    have hghc := hghc2
    have hred : CreateBranch s name = (.ok (), UpdateRef s name h) := by
      simp [CreateBranch, hghc]
    rw [hred]
    refine ⟨rfl, rfl, ?_, rfl, rfl, rfl⟩
    simpa [UpdateRef] using lookupA_upsertF_self s.refs name (fun _ => h)

/-- C9 witness: the unborn branch and the resolved-commit branch at
concrete states. -/
theorem createbranch_contract_wit :
    CreateBranch ⟨[], [], strBytes "ref: refs/heads/master", [], []⟩ (strBytes "dev") =
      (.error .noCommitsYet, ⟨[], [], strBytes "ref: refs/heads/master", [], []⟩) ∧
    (CreateBranch ⟨[(CalculateHash (commitSerialize ⟨strBytes "t", [], strBytes "m",
          strBytes "a", 0⟩), commitSerialize ⟨strBytes "t", [], strBytes "m",
          strBytes "a", 0⟩)],
        [(strBytes "master", CalculateHash (commitSerialize ⟨strBytes "t", [], strBytes "m",
          strBytes "a", 0⟩))],
        strBytes "ref: refs/heads/master", [], []⟩ (strBytes "dev")).1 = .ok () ∧
    lookupA ((CreateBranch ⟨[(CalculateHash (commitSerialize ⟨strBytes "t", [], strBytes "m",
          strBytes "a", 0⟩), commitSerialize ⟨strBytes "t", [], strBytes "m",
          strBytes "a", 0⟩)],
        [(strBytes "master", CalculateHash (commitSerialize ⟨strBytes "t", [], strBytes "m",
          strBytes "a", 0⟩))],
        strBytes "ref: refs/heads/master", [], []⟩ (strBytes "dev")).2).refs
      (strBytes "dev") =
      some (CalculateHash (commitSerialize ⟨strBytes "t", [], strBytes "m",
        strBytes "a", 0⟩)) := by
  have key := (createbranch_contract
      ⟨[(CalculateHash (commitSerialize ⟨strBytes "t", [], strBytes "m", strBytes "a", 0⟩),
          commitSerialize ⟨strBytes "t", [], strBytes "m", strBytes "a", 0⟩)],
        [(strBytes "master", CalculateHash (commitSerialize ⟨strBytes "t", [], strBytes "m",
          strBytes "a", 0⟩))],
        strBytes "ref: refs/heads/master", [], []⟩
      (strBytes "master") (strBytes "dev") (by decide)).2
      (CalculateHash (commitSerialize ⟨strBytes "t", [], strBytes "m", strBytes "a", 0⟩))
      ⟨strBytes "t", [], strBytes "m", strBytes "a", 0⟩ (by simp [lookupA]) (by simp [lookupA]) rfl
  exact ⟨(createbranch_contract
      ⟨[], [], strBytes "ref: refs/heads/master", [], []⟩
      (strBytes "master") (strBytes "dev") (by decide)).1 rfl, key.1, key.2.2.1⟩

/- ## C1: Status after Commit -/

theorem statusR_filterMap_untracked (ws : List (Bytes × Bytes)) :
    ws.filterMap (fun fc =>
      if (lookupA ([] : List (Bytes × Bytes)) fc.1).isNone then some fc.1 else none) =
      ws.map Prod.fst := by
  induction ws with
  | nil => rfl
  | cons fc t ih =>
    have ih' : List.filterMap (fun fc : Bytes × Bytes => some fc.1) t = t.map Prod.fst := by
      simpa [lookupA] using ih
    simp [List.filterMap_cons, lookupA, ih']

theorem statusR_filterMap_unstaged (ws : List (Bytes × Bytes)) :
    ws.filterMap (fun fc =>
      match lookupA ([] : List (Bytes × Bytes)) fc.1 with
      | some ih => if (NewBlob fc.2).hash ≠ ih then some fc.1 else none
      | none => none) = [] := by
  induction ws with
  | nil => rfl
  | cons fc t ih => simp [List.filterMap_cons, lookupA, ih]

theorem statusR_empty_index (s' : RState) (hidx : s'.index = []) :
    StatusR s' = ⟨[], [], s'.workspace.map Prod.fst⟩ := by
  simp only [StatusR, GetIndexEntries, hidx]
  rw [statusR_filterMap_untracked s'.workspace, statusR_filterMap_unstaged s'.workspace]
  rfl

/-- C1 (amended): after a successful `Commit` on an untouched working
directory, `Status` reports zero Unstaged entries and zero Staged
entries, but — because the commit cleared the index and `Status`
classifies solely against the index — every working file is reported
Untracked, not zero of them. -/
theorem status_after_commit (s : RState) (message author : Bytes) (now : Nat) (h : Bytes)
    (hok : (CommitR s message author now).1 = .ok h) :
    StatusR ((CommitR s message author now).2) =
      ⟨[], [], s.workspace.map Prod.fst⟩ := by
  have hc := (commit_contract s message author now).2 h hok
  rw [statusR_empty_index _ hc.2.1, hc.2.2]

/-- C1 witness: the amended claim at a concrete one-file repository. -/
theorem status_after_commit_wit :
    StatusR ((CommitR ⟨[], [], strBytes "ref: refs/heads/master",
        [(strBytes "f.txt", strBytes "h1")], [(strBytes "f.txt", strBytes "hi")]⟩
      (strBytes "m") (strBytes "a") 0).2) = ⟨[], [], [strBytes "f.txt"]⟩ := by
  obtain ⟨h, hh⟩ : ∃ h, (CommitR ⟨[], [], strBytes "ref: refs/heads/master",
      [(strBytes "f.txt", strBytes "h1")], [(strBytes "f.txt", strBytes "hi")]⟩
      (strBytes "m") (strBytes "a") 0).1 = .ok h := ⟨_, rfl⟩
  exact (status_after_commit _ _ _ _ h hh).trans rfl

/-- C1 counterexample: on a freshly committed, untouched one-file working
tree the commit succeeds yet `Status` reports a nonempty Untracked set,
refuting "zero Untracked entries". -/
theorem status_after_commit_cex :
    ((CommitR ⟨[], [], strBytes "ref: refs/heads/master",
        [(strBytes "f.txt", strBytes "h1")], [(strBytes "f.txt", strBytes "hi")]⟩
      (strBytes "m") (strBytes "a") 0).1.toOption.isSome = true) ∧
    (StatusR ((CommitR ⟨[], [], strBytes "ref: refs/heads/master",
        [(strBytes "f.txt", strBytes "h1")], [(strBytes "f.txt", strBytes "hi")]⟩
      (strBytes "m") (strBytes "a") 0).2)).untracked ≠ [] := by
  decide

/- ## C2: deep staged paths are dropped by the tree builder -/

/-- C2: the staged file `a/b/c.txt` is grouped under directory key `a/b`,
but the root tree built for the map comes out with no entries at all —
the directory `a/b` is never attached to any parent, so the staged file
is unreachable from the returned root tree. -/
theorem buildtree_drops_deep_paths :
    (BuildTreeFromPaths [(strBytes "a/b/c.txt", strBytes "h")]).entries = [] ∧
    lookupA (buildDirMap [(strBytes "a/b/c.txt", strBytes "h")]) (strBytes "a/b") =
      some [(strBytes "c.txt", strBytes "h")] := by
  decide

/- ## Lexicographic order on byte strings -/

theorem lexLe_refl (x : Bytes) : lexLe x x = true := by
  induction x with
  | nil => rfl
  | cons a t ih => simp [lexLe, ih]

theorem lexLe_total (x y : Bytes) (h : lexLe x y = false) : lexLe y x = true := by
  induction x generalizing y with
  | nil => simp [lexLe] at h
  | cons a t ih =>
    cases y with
    | nil => simp [lexLe]
    | cons b u =>
      by_cases hab : a < b
      · simp [lexLe, hab] at h
      · by_cases hba : b < a
        · simp [lexLe, hba, Nat.lt_asymm hba]
        · simp [lexLe, hab, hba] at h
          simp [lexLe, hab, hba, ih u h]

theorem lexLe_antisymm (x y : Bytes) (hxy : lexLe x y = true) (hyx : lexLe y x = true) :
    x = y := by
  induction x generalizing y with
  | nil =>
    cases y with
    | nil => rfl
    | cons b u => simp [lexLe] at hyx
  | cons a t ih =>
    cases y with
    | nil => simp [lexLe] at hxy
    | cons b u =>
      by_cases hab : a < b
      · simp [lexLe, hab, Nat.lt_asymm hab] at hyx
      · by_cases hba : b < a
        · simp [lexLe, Nat.lt_asymm hba, hba] at hxy
        · have hEq : a = b := Nat.le_antisymm (Nat.not_lt.mp hba) (Nat.not_lt.mp hab)
          subst hEq
          simp [lexLe, hab] at hxy hyx
          rw [ih u hxy hyx]

/- ## Stability of the sort-before-hash step -/

theorem mem_insEntry (e x : TreeEntry) (l : List TreeEntry) :
    x ∈ insEntry e l ↔ x = e ∨ x ∈ l := by
  induction l with
  | nil => simp [insEntry]
  | cons f t ih =>
    by_cases hle : lexLe e.Name f.Name = true
    · rw [insEntry, if_pos hle]
      simp only [List.mem_cons]
    · rw [insEntry, if_neg hle]
      simp only [List.mem_cons, ih]
      tauto

theorem lexLe_trans (x y z : Bytes) (h1 : lexLe x y = true) (h2 : lexLe y z = true) :
    lexLe x z = true := by
  induction x generalizing y z with
  | nil => cases z <;> rfl
  | cons a t ih =>
    cases y with
    | nil => simp [lexLe] at h1
    | cons b u =>
      cases z with
      | nil => simp [lexLe] at h2
      | cons c v =>
        by_cases hab : a < b
        · by_cases hbc : b < c
          · simp [lexLe, Nat.lt_trans hab hbc]
          · by_cases hcb : c < b
            · simp [lexLe, hbc, hcb] at h2
            · have : b = c := Nat.le_antisymm (Nat.not_lt.mp hcb) (Nat.not_lt.mp hbc)
              simp [lexLe, this ▸ hab]
        · by_cases hba : b < a
          · simp [lexLe, hab, hba] at h1
          · have hEq : a = b := Nat.le_antisymm (Nat.not_lt.mp hba) (Nat.not_lt.mp hab)
            subst hEq
            simp [lexLe, hab] at h1
            by_cases hac : a < c
            · simp [lexLe, hac]
            · by_cases hca : c < a
              · simp [lexLe, hac, hca] at h2
              · simp [lexLe, hac, hca] at h2 ⊢
                exact ih u v h1 h2

theorem filter_insEntry (n : Bytes) (e : TreeEntry) (l : List TreeEntry) :
    (insEntry e l).filter (nameIs n) =
      if e.Name = n then e :: l.filter (nameIs n) else l.filter (nameIs n) := by
  induction l with
  | nil =>
    by_cases hn : e.Name = n
    · simp [insEntry, List.filter_cons, nameIs, hn]
    · simp [insEntry, List.filter_cons, nameIs, hn]
  | cons f t ih =>
    by_cases hle : lexLe e.Name f.Name = true
    · rw [insEntry, if_pos hle]
      by_cases hn : e.Name = n
      · simp [List.filter_cons, nameIs, hn]
      · simp [List.filter_cons, nameIs, hn]
    · rw [insEntry, if_neg hle]
      by_cases hn : e.Name = n
      · by_cases hf : f.Name = n
        · exact absurd (by rw [hn, hf]; exact lexLe_refl n) hle
        · simp [List.filter_cons, nameIs, hf, ih, hn]
      · by_cases hf : f.Name = n
        · simp [List.filter_cons, nameIs, hf, ih, hn]
        · simp [List.filter_cons, nameIs, hf, ih, hn]

theorem filter_sortEntries (n : Bytes) (l : List TreeEntry) :
    (sortEntries l).filter (nameIs n) = l.filter (nameIs n) := by
  induction l with
  | nil => rfl
  | cons e t ih =>
    rw [sortEntries, filter_insEntry]
    by_cases hn : e.Name = n
    · simp [List.filter_cons, nameIs, hn, ih]
    · simp [List.filter_cons, nameIs, hn, ih]

theorem sorted_insEntry (e : TreeEntry) (l : List TreeEntry)
    (h : l.Pairwise (fun a b => lexLe a.Name b.Name = true)) :
    (insEntry e l).Pairwise (fun a b => lexLe a.Name b.Name = true) := by
  induction l with
  | nil => simp [insEntry]
  | cons f t ih =>
    by_cases hle : lexLe e.Name f.Name = true
    · rw [insEntry, if_pos hle]
      refine List.Pairwise.cons ?_ h
      intro x hx
      rcases List.mem_cons.mp hx with hxf | hxt
      · rw [hxf]; exact hle
      · exact lexLe_trans _ _ _ hle ((List.pairwise_cons.mp h).1 x hxt)
    · rw [insEntry, if_neg hle]
      have hef := lexLe_total _ _ (Bool.eq_false_iff.mpr hle)
      obtain ⟨hf, ht⟩ := List.pairwise_cons.mp h
      refine List.Pairwise.cons ?_ (ih ht)
      intro x hx
      rcases (mem_insEntry e x t).mp hx with hxe | hxt
      · rw [hxe]; exact hef
      · exact hf x hxt

theorem sorted_sortEntries (l : List TreeEntry) :
    (sortEntries l).Pairwise (fun a b => lexLe a.Name b.Name = true) := by
  induction l with
  | nil => exact List.Pairwise.nil
  | cons e t ih => exact sorted_insEntry e (sortEntries t) ih

theorem sorted_filter_ext (s₁ s₂ : List TreeEntry)
    (h₁ : s₁.Pairwise (fun a b => lexLe a.Name b.Name = true))
    (h₂ : s₂.Pairwise (fun a b => lexLe a.Name b.Name = true))
    (hf : ∀ n, s₁.filter (nameIs n) = s₂.filter (nameIs n)) : s₁ = s₂ := by
  induction s₁ generalizing s₂ with
  | nil =>
    cases s₂ with
    | nil => rfl
    | cons b u =>
      have := hf b.Name
      simp [List.filter_cons, nameIs] at this
  | cons a t ih =>
    cases s₂ with
    | nil =>
      have := hf a.Name
      simp [List.filter_cons, nameIs] at this
    | cons b u =>
      have hab : a = b := by
        by_cases hnames : a.Name = b.Name
        · have := hf a.Name
          rw [List.filter_cons, List.filter_cons] at this
          simp [nameIs, hnames] at this
          exact this.1
        · -- b occurs in t, a occurs in u; sortedness forces name equality
          have hbt : b ∈ t := by
            have := hf b.Name
            rw [List.filter_cons, List.filter_cons] at this
            simp [nameIs, hnames] at this
            have hbmem : b ∈ t.filter (nameIs b.Name) := by
              rw [this]; simp [nameIs]
            exact List.mem_of_mem_filter hbmem
          have hau : a ∈ u := by
            have h5 := hf a.Name
            have hba : ¬(b.Name = a.Name) := fun hc => hnames (Eq.symm hc)
            rw [List.filter_cons, List.filter_cons] at h5
            simp [nameIs, hba] at h5
            have hamem : a ∈ u.filter (nameIs a.Name) := by
              rw [← h5]; simp [nameIs]
            exact List.mem_of_mem_filter hamem
          have h1 : lexLe a.Name b.Name = true := (List.pairwise_cons.mp h₁).1 b hbt
          have h2 : lexLe b.Name a.Name = true := (List.pairwise_cons.mp h₂).1 a hau
          exact absurd (lexLe_antisymm _ _ h1 h2) hnames
      subst hab
      have htail : ∀ n, t.filter (nameIs n) = u.filter (nameIs n) := by
        intro n
        have := hf n
        rw [List.filter_cons, List.filter_cons] at this
        by_cases hn : a.Name = n
        · simp [nameIs, hn] at this
          exact this
        · simpa [nameIs, hn] using this
      exact congrArg _ (ih u (List.pairwise_cons.mp h₁).2 (List.pairwise_cons.mp h₂).2 htail)

theorem sortEntries_eq_of_filters (l₁ l₂ : List TreeEntry)
    (hf : ∀ n, l₁.filter (nameIs n) = l₂.filter (nameIs n)) :
    sortEntries l₁ = sortEntries l₂ := by
  refine sorted_filter_ext _ _ (sorted_sortEntries l₁) (sorted_sortEntries l₂) ?_
  intro n
  rw [filter_sortEntries, filter_sortEntries]
  exact hf n

/- ## C4: tree hash is insertion-order independent -/

theorem foldl_addEntry (acc : List TreeEntry) (es : List TreeEntry) :
    (es.foldl (fun t e => addEntry t e.Name e.Hash e.Mode) ⟨acc⟩).entries = acc ++ es := by
  induction es generalizing acc with
  | nil => simp
  | cons e t ih =>
    have : addEntry ⟨acc⟩ e.Name e.Hash e.Mode = ⟨acc ++ [e]⟩ := rfl
    simp only [List.foldl_cons, this, ih]
    simp

theorem buildTreeFrom_entries (es : List TreeEntry) : (buildTreeFrom es).entries = es := by
  simpa [buildTreeFrom, NewTree] using foldl_addEntry [] es

theorem length_filter_name_le_one (l : List TreeEntry)
    (hnd : (l.map TreeEntry.Name).Nodup) (n : Bytes) :
    (l.filter (nameIs n)).length ≤ 1 := by
  induction l with
  | nil => simp
  | cons e t ih =>
    obtain ⟨hmem, hnd2⟩ :=
      (by simpa using hnd :
        (∀ x ∈ t, ¬x.Name = e.Name) ∧ (t.map TreeEntry.Name).Nodup)
    by_cases hn : e.Name = n
    · rw [List.filter_cons, if_pos (by simp [nameIs, hn])]
      have hnil : t.filter (nameIs n) = [] := by
        rw [List.filter_eq_nil_iff]
        intro x hx hnx
        have hxn : x.Name = n := by simpa [nameIs] using hnx
        exact hmem x hx (hxn.trans hn.symm)
      simp [hnil]
    · rw [List.filter_cons, if_neg (by simp [nameIs, hn])]
      exact ih hnd2

theorem perm_eq_of_length_le_one (l₁ l₂ : List TreeEntry) (h : l₁.Perm l₂)
    (hl : l₁.length ≤ 1) : l₁ = l₂ := by
  cases l₁ with
  | nil => exact List.Perm.nil_eq h
  | cons a t =>
    cases t with
    | nil => exact ((List.perm_singleton).mp h.symm).symm
    | cons b u => simp at hl

theorem filters_of_perm_nodup (l₁ l₂ : List TreeEntry) (hp : l₁.Perm l₂)
    (hnd : (l₁.map TreeEntry.Name).Nodup) (n : Bytes) :
    l₁.filter (nameIs n) = l₂.filter (nameIs n) :=
  perm_eq_of_length_le_one _ _ (hp.filter (nameIs n)) (length_filter_name_le_one l₁ hnd n)

/-- C4: building a tree by `AddEntry`/`AddFile`/`AddDirectory` calls in
any insertion order gives, for entry sets with pairwise distinct names,
an identical serialized form — entries are sorted by name before hashing
— and therefore an identical `ID`. -/
theorem tree_hash_order_independent (es₁ es₂ : List TreeEntry) (hp : es₁.Perm es₂)
    (hnd : (es₁.map TreeEntry.Name).Nodup) :
    treeSerialize (buildTreeFrom es₁) = treeSerialize (buildTreeFrom es₂) ∧
    treeID (buildTreeFrom es₁) = treeID (buildTreeFrom es₂) := by
  have hs : sortEntries es₁ = sortEntries es₂ :=
    sortEntries_eq_of_filters _ _ (filters_of_perm_nodup es₁ es₂ hp hnd)
  have hser : treeSerialize (buildTreeFrom es₁) = treeSerialize (buildTreeFrom es₂) := by
    unfold treeSerialize
    rw [buildTreeFrom_entries, buildTreeFrom_entries, hs]
  exact ⟨hser, by unfold treeID; rw [hser]⟩

/-- C4 witness: two insertion orders of the same two-entry set. -/
theorem tree_hash_order_independent_wit :
    treeID (buildTreeFrom [⟨strBytes "b", strBytes "h1", modeFile⟩,
        ⟨strBytes "a", strBytes "h2", modeDir⟩]) =
      treeID (buildTreeFrom [⟨strBytes "a", strBytes "h2", modeDir⟩,
        ⟨strBytes "b", strBytes "h1", modeFile⟩]) :=
  (tree_hash_order_independent _ _ (by decide) (by decide)).2

/- ## C5: dirMap lookup characterization -/

theorem keysOf_upsertF {β : Type} (a : List (Bytes × β)) (k k' : Bytes)
    (g : Option β → β) : k' ∈ keysOf (upsertF a k g) ↔ k' = k ∨ k' ∈ keysOf a := by
  induction a with
  | nil => simp [upsertF, keysOf]
  | cons kv t ih =>
    by_cases hk : kv.1 = k
    · simp [upsertF, hk, keysOf]
    · simp only [upsertF, hk, ite_false, if_neg, keysOf, List.map_cons, List.mem_cons]
      rw [show (upsertF t k g).map Prod.fst = keysOf (upsertF t k g) from rfl, ih]
      simp only [keysOf]
      tauto

theorem keysOf_upsertF_shape {β : Type} (a : List (Bytes × β)) (k : Bytes)
    (g : Option β → β) :
    keysOf (upsertF a k g) =
      if k ∈ keysOf a then keysOf a else keysOf a ++ [k] := by
  induction a with
  | nil => simp [upsertF, keysOf]
  | cons kv t ih =>
    by_cases hk : kv.1 = k
    · simp [upsertF, hk, keysOf]
    · have hk2 : ¬(k = kv.1) := fun hc => hk (Eq.symm hc)
      by_cases hmem : k ∈ keysOf t
      · have hmem' : k ∈ List.map Prod.fst t := hmem
        simp only [upsertF, hk, ite_false, if_neg, keysOf, List.map_cons]
        rw [show (upsertF t k g).map Prod.fst = keysOf (upsertF t k g) from rfl, ih]
        simp [keysOf, hmem, hmem', hk2]
      · have hmem' : ¬k ∈ List.map Prod.fst t := hmem
        simp only [upsertF, hk, ite_false, if_neg, keysOf, List.map_cons]
        rw [show (upsertF t k g).map Prod.fst = keysOf (upsertF t k g) from rfl, ih]
        simp [keysOf, hmem, hmem', hk2]

theorem nodup_keysOf_upsertF {β : Type} (a : List (Bytes × β)) (k : Bytes)
    (g : Option β → β) (h : (keysOf a).Nodup) : (keysOf (upsertF a k g)).Nodup := by
  rw [keysOf_upsertF_shape]
  by_cases hmem : k ∈ keysOf a
  · rwa [if_pos hmem]
  · rw [if_neg hmem]
    exact List.Nodup.append h (List.nodup_singleton k) (by simpa using hmem)

theorem lookup2_innerAt (dm : List (Bytes × List (Bytes × Bytes))) (d n : Bytes) :
    lookupA (innerAt dm d) n = lookup2 dm d n := by
  unfold innerAt lookup2
  cases lookupA dm d with
  | none => rfl
  | some inner => rfl

theorem lookup2_dmStep_self (dm : List (Bytes × List (Bytes × Bytes))) (ph : Bytes × Bytes) :
    lookup2 (dmStep dm ph) (dirKeyOf ph.1) (fileOf ph.1) = some ph.2 := by
  unfold dmStep lookup2
  rw [lookupA_upsertF_self]
  simp only [Option.some_bind]
  exact lookupA_upsertF_self _ _ _

theorem lookup2_dmStep_other (dm : List (Bytes × List (Bytes × Bytes))) (ph : Bytes × Bytes)
    (d f : Bytes) (h : ¬(d = dirKeyOf ph.1 ∧ f = fileOf ph.1)) :
    lookup2 (dmStep dm ph) d f = lookup2 dm d f := by
  unfold dmStep lookup2
  by_cases hd : d = dirKeyOf ph.1
  · have hf : ¬(f = fileOf ph.1) := fun hc => h ⟨hd, hc⟩
    rw [hd, lookupA_upsertF_self]
    simp only [Option.some_bind]
    rw [lookupA_upsertF_other _ _ _ _ hf]
    cases hcase : lookupA dm (dirKeyOf ph.1) with
    | none => simp [lookupA]
    | some inner => simp
  · rw [lookupA_upsertF_other _ _ _ _ hd]

theorem lookup2_foldl_preserve (l : List (Bytes × Bytes))
    (dm : List (Bytes × List (Bytes × Bytes))) (d f : Bytes)
    (h : ∀ ph ∈ l, ¬(d = dirKeyOf ph.1 ∧ f = fileOf ph.1)) :
    lookup2 (l.foldl dmStep dm) d f = lookup2 dm d f := by
  induction l generalizing dm with
  | nil => rfl
  | cons ph t ih =>
    rw [List.foldl_cons, ih _ (fun q hq => h q (by simp [hq])),
      lookup2_dmStep_other _ _ _ _ (h ph (by simp))]

theorem lookup2_foldl_hit (l : List (Bytes × Bytes)) (p v d f : Bytes)
    (hnd : (l.map Prod.fst).Nodup)
    (hinj : ∀ q ∈ l.map Prod.fst, ∀ r ∈ l.map Prod.fst, splitKey q = splitKey r → q = r)
    (hmem : (p, v) ∈ l) (hsk : splitKey p = (d, f)) :
    ∀ dm, lookup2 (l.foldl dmStep dm) d f = some v := by
  induction l with
  | nil => exact absurd hmem (by simp)
  | cons ph t ih =>
    intro dm
    rcases List.mem_cons.mp hmem with hhead | htail
    · -- the hit is the head: the tail never touches (d, f)
      have hp : ph.1 = p := by rw [← hhead]
      have hv : ph.2 = v := by rw [← hhead]
      have hkey : dirKeyOf ph.1 = d ∧ fileOf ph.1 = f := by
        rw [hp]
        have hsk' : (dirKeyOf p, fileOf p) = (d, f) := hsk
        injection hsk' with h1 h2
        exact ⟨h1, h2⟩
      rw [List.foldl_cons]
      have hside : ∀ q ∈ t, ¬(d = dirKeyOf q.1 ∧ f = fileOf q.1) := by
        intro q hq hc
        have hq1 : q.1 ∈ t.map Prod.fst := List.mem_map_of_mem Prod.fst hq
        have hsp : splitKey q.1 = splitKey p := by
          unfold splitKey
          rw [← hc.1, ← hc.2, ← hp, hkey.1, hkey.2]
        have hmm1 : q.1 ∈ (ph :: t).map Prod.fst := by
          rw [List.map_cons]
          exact List.mem_cons.mpr (Or.inr hq1)
        have hmm2 : p ∈ (ph :: t).map Prod.fst := by
          rw [List.map_cons, ← hp]
          exact List.mem_cons_self _ _
        have hqp : q.1 = p := hinj q.1 hmm1 p hmm2 hsp
        have hnd2 : (ph.1 :: t.map Prod.fst).Nodup := by
          rw [← List.map_cons]; exact hnd
        have hnotin : p ∉ t.map Prod.fst := hp ▸ (List.nodup_cons.mp hnd2).1
        exact hnotin (hqp ▸ hq1)
      rw [lookup2_foldl_preserve t (dmStep dm ph) d f hside, ← hkey.1, ← hkey.2]
      rw [← hv]
      exact lookup2_dmStep_self dm ph
    · -- the hit sits in the tail
      rw [List.foldl_cons]
      have hnd2 : (ph.1 :: t.map Prod.fst).Nodup := by
        rw [← List.map_cons]; exact hnd
      exact ih hnd2.of_cons
        (fun q hq r hr => hinj q (by simp [hq]) r (by simp [hr])) htail _

theorem keysOf_foldl_mem (l : List (Bytes × Bytes))
    (dm : List (Bytes × List (Bytes × Bytes))) (k : Bytes) :
    k ∈ keysOf (l.foldl dmStep dm) ↔ (∃ ph ∈ l, dirKeyOf ph.1 = k) ∨ k ∈ keysOf dm := by
  induction l generalizing dm with
  | nil => simp
  | cons ph t ih =>
    rw [List.foldl_cons, ih]
    unfold dmStep
    rw [keysOf_upsertF]
    constructor
    · rintro (h | h | h)
      · obtain ⟨q, hq, hqk⟩ := h
        exact Or.inl ⟨q, by simp [hq], hqk⟩
      · exact Or.inl ⟨ph, by simp, h.symm⟩
      · exact Or.inr h
    · rintro (⟨q, hq, hqk⟩ | h)
      · rcases List.mem_cons.mp hq with hh | ht
        · exact Or.inr (Or.inl (by rw [← hqk, hh]))
        · exact Or.inl ⟨q, ht, hqk⟩
      · exact Or.inr (Or.inr h)

theorem nodup_keysOf_foldl (l : List (Bytes × Bytes))
    (dm : List (Bytes × List (Bytes × Bytes))) (h : (keysOf dm).Nodup) :
    (keysOf (l.foldl dmStep dm)).Nodup := by
  induction l generalizing dm with
  | nil => exact h
  | cons ph t ih => exact ih _ (nodup_keysOf_upsertF _ _ _ h)

theorem nodup_inner_foldl (l : List (Bytes × Bytes))
    (dm : List (Bytes × List (Bytes × Bytes)))
    (h : ∀ d inner, lookupA dm d = some inner → (keysOf inner).Nodup) :
    ∀ d inner, lookupA (l.foldl dmStep dm) d = some inner → (keysOf inner).Nodup := by
  induction l generalizing dm with
  | nil => exact h
  | cons ph t ih =>
    refine ih _ ?_
    intro d inner hlk
    unfold dmStep at hlk
    by_cases hd : d = dirKeyOf ph.1
    · rw [hd, lookupA_upsertF_self] at hlk
      have hbase : (keysOf ((lookupA dm (dirKeyOf ph.1)).getD [])).Nodup := by
        cases hcase : lookupA dm (dirKeyOf ph.1) with
        | none => simp [keysOf]
        | some old => simpa using h _ old hcase
      have := nodup_keysOf_upsertF ((lookupA dm (dirKeyOf ph.1)).getD [])
        (fileOf ph.1) (fun _ => ph.2) hbase
      rw [← Option.some_inj.mp hlk]
      exact this
    · rw [lookupA_upsertF_other _ _ _ _ hd] at hlk
      exact h d inner hlk

theorem lookup2_buildDirMap_eq (l₁ l₂ : List (Bytes × Bytes)) (hp : l₁.Perm l₂)
    (hnd : (l₁.map Prod.fst).Nodup)
    (hinj : ∀ q ∈ l₁.map Prod.fst, ∀ r ∈ l₁.map Prod.fst, splitKey q = splitKey r → q = r)
    (d f : Bytes) : lookup2 (buildDirMap l₁) d f = lookup2 (buildDirMap l₂) d f := by
  have hpm := hp.map Prod.fst
  have hnd₂ : (l₂.map Prod.fst).Nodup := hpm.nodup_iff.mp hnd
  have hinj₂ : ∀ q ∈ l₂.map Prod.fst, ∀ r ∈ l₂.map Prod.fst, splitKey q = splitKey r → q = r :=
    fun q hq r hr => hinj q (hpm.mem_iff.mpr hq) r (hpm.mem_iff.mpr hr)
  unfold buildDirMap
  by_cases hex : ∃ ph, ph ∈ l₁ ∧ splitKey ph.1 = (d, f)
  · obtain ⟨⟨p, v⟩, hmem, hsk⟩ := hex
    rw [lookup2_foldl_hit l₁ p v d f hnd hinj hmem hsk [],
      lookup2_foldl_hit l₂ p v d f hnd₂ hinj₂ (hp.mem_iff.mp hmem) hsk []]
  · have hno₁ : ∀ ph ∈ l₁, ¬(d = dirKeyOf ph.1 ∧ f = fileOf ph.1) := by
      intro ph hph hc
      exact hex ⟨ph, hph, by unfold splitKey; rw [← hc.1, ← hc.2]⟩
    have hno₂ : ∀ ph ∈ l₂, ¬(d = dirKeyOf ph.1 ∧ f = fileOf ph.1) :=
      fun ph hph => hno₁ ph (hp.mem_iff.mpr hph)
    rw [lookup2_foldl_preserve l₁ [] d f hno₁, lookup2_foldl_preserve l₂ [] d f hno₂]

theorem innerAt_nodup (l : List (Bytes × Bytes)) (d : Bytes) :
    (keysOf (innerAt (buildDirMap l) d)).Nodup := by
  unfold innerAt
  cases hcase : lookupA (buildDirMap l) d with
  | none => simp [keysOf]
  | some inner =>
    exact nodup_inner_foldl l [] (by intro d' i' hc; simp [lookupA] at hc) d inner hcase

theorem filter_name_files (inner : List (Bytes × Bytes)) (n : Bytes)
    (hnd : (keysOf inner).Nodup) :
    (inner.map (fun fh => (⟨fh.1, fh.2, modeFile⟩ : TreeEntry))).filter (nameIs n) =
      match lookupA inner n with
      | some h => [⟨n, h, modeFile⟩]
      | none => [] := by
  induction inner with
  | nil => rfl
  | cons kv t ih =>
    have hnd' : (kv.1 :: t.map Prod.fst).Nodup := hnd
    obtain ⟨hnotin0, hnd2⟩ := List.nodup_cons.mp hnd'
    by_cases hk : kv.1 = n
    · rw [List.map_cons, List.filter_cons, if_pos (by simp [nameIs, hk])]
      have hnil : (t.map (fun fh => (⟨fh.1, fh.2, modeFile⟩ : TreeEntry))).filter
          (nameIs n) = [] := by
        rw [List.filter_eq_nil_iff]
        intro x hx hnx
        obtain ⟨fh, hfh, hfx⟩ := List.mem_map.mp hx
        have h1 : fh.1 = x.Name := congrArg TreeEntry.Name hfx
        have h2 : x.Name = n := of_decide_eq_true hnx
        have h3 : fh.1 = kv.1 := (h1.trans h2).trans hk.symm
        exact hnotin0 (h3 ▸ List.mem_map_of_mem Prod.fst hfh)
      rw [hnil]
      simp [lookupA, hk]
    · rw [List.map_cons, List.filter_cons, if_neg (by simp [nameIs, hk])]
      rw [ih hnd2]
      simp [lookupA, hk]

theorem filter_name_filterMap (a : List (Bytes × List (Bytes × Bytes))) (n : Bytes)
    (Q : Bytes → Prop) [DecidablePred Q] (nameF hashF : Bytes → Bytes) (mode : Nat) :
    (a.filterMap (fun dv =>
        if Q dv.1 then some (⟨nameF dv.1, hashF dv.1, mode⟩ : TreeEntry) else none)).filter
        (nameIs n) =
      a.filterMap (fun dv =>
        if Q dv.1 ∧ nameF dv.1 = n then some (⟨nameF dv.1, hashF dv.1, mode⟩ : TreeEntry)
        else none) := by
  induction a with
  | nil => rfl
  | cons dv t ih =>
    by_cases hq : Q dv.1
    · by_cases hn : nameF dv.1 = n
      · rw [List.filterMap_cons, List.filterMap_cons, if_pos hq, if_pos ⟨hq, hn⟩,
          List.filter_cons, if_pos (by simp [nameIs, hn]), ih]
      · rw [List.filterMap_cons, List.filterMap_cons, if_pos hq,
          if_neg (fun hc : Q dv.1 ∧ nameF dv.1 = n => hn hc.2),
          List.filter_cons, if_neg (by simp [nameIs, hn]), ih]
    · rw [List.filterMap_cons, List.filterMap_cons, if_neg hq,
        if_neg (fun hc : Q dv.1 ∧ nameF dv.1 = n => hq hc.1), ih]

theorem filterMap_name_none (a : List (Bytes × List (Bytes × Bytes))) (n : Bytes)
    (Q : Bytes → Prop) [DecidablePred Q] (nameF hashF : Bytes → Bytes) (mode : Nat)
    (hnone : ∀ k ∈ keysOf a, ¬(Q k ∧ nameF k = n)) :
    a.filterMap (fun dv =>
      if Q dv.1 ∧ nameF dv.1 = n then some (⟨nameF dv.1, hashF dv.1, mode⟩ : TreeEntry)
      else none) = [] := by
  induction a with
  | nil => rfl
  | cons dv t ih =>
    rw [List.filterMap_cons, if_neg (hnone dv.1 (by simp [keysOf]))]
    exact ih (fun k hk => hnone k (by simp [keysOf] at hk ⊢; exact Or.inr hk))

theorem filterMap_name_single (a : List (Bytes × List (Bytes × Bytes))) (n : Bytes)
    (Q : Bytes → Prop) [DecidablePred Q] (nameF hashF : Bytes → Bytes) (mode : Nat)
    (k₀ : Bytes) (hnd : (keysOf a).Nodup) (hk : k₀ ∈ keysOf a)
    (hq : Q k₀ ∧ nameF k₀ = n)
    (huniq : ∀ k ∈ keysOf a, Q k ∧ nameF k = n → k = k₀) :
    a.filterMap (fun dv =>
      if Q dv.1 ∧ nameF dv.1 = n then some (⟨nameF dv.1, hashF dv.1, mode⟩ : TreeEntry)
      else none) = [⟨n, hashF k₀, mode⟩] := by
  induction a with
  | nil => exact absurd hk (by simp [keysOf])
  | cons dv t ih =>
    have hnd' : (dv.1 :: t.map Prod.fst).Nodup := hnd
    obtain ⟨hnotin0, hnd2⟩ := List.nodup_cons.mp hnd'
    by_cases hQ : Q dv.1 ∧ nameF dv.1 = n
    · have hdk : dv.1 = k₀ := huniq dv.1 (by simp [keysOf]) hQ
      rw [List.filterMap_cons, if_pos hQ]
      have htail : t.filterMap (fun dv =>
          if Q dv.1 ∧ nameF dv.1 = n then some (⟨nameF dv.1, hashF dv.1, mode⟩ : TreeEntry)
          else none) = [] := by
        apply filterMap_name_none
        intro k hkt hc
        have hkk : k = k₀ := huniq k (by simp [keysOf] at hkt ⊢; exact Or.inr hkt) hc
        have hkt' : k ∈ t.map Prod.fst := hkt
        rw [hkk, ← hdk] at hkt'
        exact hnotin0 hkt'
      rw [htail, hQ.2, hdk]
    · have hk' : k₀ ∈ keysOf t := by
        have : ¬(dv.1 = k₀) := fun hc => hQ (hc ▸ hq)
        simp [keysOf] at hk ⊢
        rcases hk with h | h
        · exact absurd h.symm this
        · exact h
      rw [List.filterMap_cons, if_neg hQ]
      exact ih hnd2 hk'
        (fun k hkt => huniq k (by simp [keysOf] at hkt ⊢; exact Or.inr hkt))

theorem treeID_sort_congr (t₁ t₂ : Tree)
    (h : sortEntries t₁.entries = sortEntries t₂.entries) : treeID t₁ = treeID t₂ := by
  unfold treeID treeSerialize
  rw [h]

theorem treeIDE_sort_congr (es₁ es₂ : List TreeEntry)
    (h : sortEntries es₁ = sortEntries es₂) : treeIDE es₁ = treeIDE es₂ :=
  treeID_sort_congr ⟨es₁⟩ ⟨es₂⟩ h

theorem entries_mk (es : List TreeEntry) : (Tree.mk es).entries = es := rfl

theorem dmKeys_mem_iff (l₁ l₂ : List (Bytes × Bytes)) (hp : l₁.Perm l₂) (k : Bytes) :
    k ∈ keysOf (buildDirMap l₁) ↔ k ∈ keysOf (buildDirMap l₂) := by
  unfold buildDirMap
  rw [keysOf_foldl_mem, keysOf_foldl_mem]
  constructor
  · rintro (⟨q, hq, hqk⟩ | h)
    · exact Or.inl ⟨q, hp.mem_iff.mp hq, hqk⟩
    · exact Or.inr h
  · rintro (⟨q, hq, hqk⟩ | h)
    · exact Or.inl ⟨q, hp.mem_iff.mpr hq, hqk⟩
    · exact Or.inr h

theorem dmKeys_image (l : List (Bytes × Bytes)) (k : Bytes)
    (hk : k ∈ keysOf (buildDirMap l)) : ∃ p ∈ l.map Prod.fst, dirKeyOf p = k := by
  unfold buildDirMap at hk
  rw [keysOf_foldl_mem] at hk
  rcases hk with ⟨q, hq, hqk⟩ | h
  · exact ⟨q.1, List.mem_map_of_mem _ hq, hqk⟩
  · simp [keysOf] at h

theorem dmKeys_nodup (l : List (Bytes × Bytes)) : (keysOf (buildDirMap l)).Nodup :=
  nodup_keysOf_foldl l [] (by simp [keysOf])

theorem innerAt_dmStep (dm : List (Bytes × List (Bytes × Bytes))) (ph : Bytes × Bytes)
    (d : Bytes) :
    innerAt (dmStep dm ph) d =
      if d = dirKeyOf ph.1 then upsertF (innerAt dm d) (fileOf ph.1) (fun _ => ph.2)
      else innerAt dm d := by
  unfold dmStep innerAt
  by_cases hd : d = dirKeyOf ph.1
  · rw [if_pos hd, hd, lookupA_upsertF_self]
    rfl
  · rw [if_neg hd, lookupA_upsertF_other _ _ _ _ hd]

theorem innerKeys_foldl_image (l : List (Bytes × Bytes))
    (dm : List (Bytes × List (Bytes × Bytes))) (d f : Bytes) :
    f ∈ keysOf (innerAt (l.foldl dmStep dm) d) →
      (∃ ph ∈ l, dirKeyOf ph.1 = d ∧ fileOf ph.1 = f) ∨ f ∈ keysOf (innerAt dm d) := by
  induction l generalizing dm with
  | nil => exact fun h => Or.inr h
  | cons ph t ih =>
    intro h
    rcases ih (dmStep dm ph) h with hmem | hbase
    · rcases hmem with ⟨q, hq, hqd, hqf⟩
      exact Or.inl ⟨q, List.mem_cons_of_mem _ hq, hqd, hqf⟩
    · rw [innerAt_dmStep] at hbase
      by_cases hd : d = dirKeyOf ph.1
      · rw [if_pos hd] at hbase
        rcases (keysOf_upsertF _ _ _ _).mp hbase with hf | hf
        · exact Or.inl ⟨ph, List.mem_cons_self _ _, hd.symm, hf.symm⟩
        · exact Or.inr hf
      · rw [if_neg hd] at hbase
        exact Or.inr hbase

/-- Every file name present in `dirMap[d]` was put there by a staged path
whose directory key is `d`. -/
theorem innerKeys_image (l : List (Bytes × Bytes)) (d f : Bytes)
    (hf : f ∈ keysOf (innerAt (buildDirMap l) d)) :
    ∃ p ∈ l.map Prod.fst, dirKeyOf p = d ∧ fileOf p = f := by
  rcases innerKeys_foldl_image l [] d f hf with ⟨ph, hph, hpd, hpf⟩ | hbase
  · exact ⟨ph.1, List.mem_map_of_mem _ hph, hpd, hpf⟩
  · simp [innerAt, lookupA, keysOf] at hbase

theorem filterMap_entry_image (a : List (Bytes × List (Bytes × Bytes)))
    (Q : Bytes → Prop) [DecidablePred Q] (nameF hashF : Bytes → Bytes) (mode : Nat)
    (e : TreeEntry)
    (he : e ∈ a.filterMap (fun dv =>
      if Q dv.1 then some (⟨nameF dv.1, hashF dv.1, mode⟩ : TreeEntry) else none)) :
    ∃ k ∈ keysOf a, Q k ∧ nameF k = e.Name := by
  rcases List.mem_filterMap.mp he with ⟨dv, hdv, hsome⟩
  by_cases hq : Q dv.1
  · rw [if_pos hq] at hsome
    refine ⟨dv.1, List.mem_map_of_mem _ hdv, hq, ?_⟩
    rw [← Option.some_inj.mp hsome]
  · rw [if_neg hq] at hsome
    exact absurd hsome (by simp)

theorem filterMap_names_nodup (a : List (Bytes × List (Bytes × Bytes)))
    (Q : Bytes → Prop) [DecidablePred Q] (nameF hashF : Bytes → Bytes) (mode : Nat)
    (hnd : (keysOf a).Nodup)
    (hinjF : ∀ k ∈ keysOf a, ∀ k' ∈ keysOf a, Q k → Q k' → nameF k = nameF k' → k = k') :
    ((a.filterMap (fun dv =>
      if Q dv.1 then some (⟨nameF dv.1, hashF dv.1, mode⟩ : TreeEntry) else none)).map
      TreeEntry.Name).Nodup := by
  induction a with
  | nil => simp
  | cons dv t ih =>
    have hnd' : (dv.1 :: t.map Prod.fst).Nodup := hnd
    obtain ⟨hhead, htail⟩ := List.nodup_cons.mp hnd'
    have hinjF' : ∀ k ∈ keysOf t, ∀ k' ∈ keysOf t,
        Q k → Q k' → nameF k = nameF k' → k = k' :=
      fun k hk k' hk' => hinjF k (List.mem_cons_of_mem _ hk) k' (List.mem_cons_of_mem _ hk')
    by_cases hq : Q dv.1
    · rw [List.filterMap_cons, if_pos hq, List.map_cons]
      refine List.nodup_cons.mpr ⟨?_, ih htail hinjF'⟩
      intro hmem
      rcases List.mem_map.mp hmem with ⟨e, he, hen⟩
      rcases filterMap_entry_image t Q nameF hashF mode e he with ⟨k, hk, hkq, hkn⟩
      have hkdv : k = dv.1 :=
        hinjF k (List.mem_cons_of_mem _ hk) dv.1 (List.mem_cons_self _ _) hkq hq
          (hkn.trans hen)
      exact hhead (hkdv ▸ hk)
    · rw [List.filterMap_cons, if_neg hq]
      exact ih htail hinjF'

/-- Under the canonicality hypotheses of C5, every directory tree built
by `processDirs` has pairwise-distinct entry names — the domain on which
the `sortEntries` model of `sort.Slice` is exact. -/
theorem processDirs_names_nodup (l : List (Bytes × Bytes))
    (hdir : ∀ q ∈ l.map Prod.fst, ∀ r ∈ l.map Prod.fst,
      fpDir (dirKeyOf q) = fpDir (dirKeyOf r) → fpBase (dirKeyOf q) = fpBase (dirKeyOf r) →
      dirKeyOf q = dirKeyOf r)
    (hnode : ∀ q ∈ l.map Prod.fst, ∀ r ∈ l.map Prod.fst,
      dirKeyOf r ≠ dirKeyOf q → fpDir (dirKeyOf r) = dirKeyOf q →
      fileOf q ≠ fpBase (dirKeyOf r)) :
    ∀ fuel d, ((processDirs (buildDirMap l) fuel d).map TreeEntry.Name).Nodup := by
  intro fuel d
  cases fuel with
  | zero => simp [processDirs]
  | succ fuel =>
    simp only [processDirs]
    rw [List.map_append]
    apply List.Nodup.append
    · rw [List.map_map]
      have hcomp : (TreeEntry.Name ∘ fun fh : Bytes × Bytes =>
          (⟨fh.1, fh.2, modeFile⟩ : TreeEntry)) = Prod.fst := rfl
      rw [hcomp]
      exact innerAt_nodup l d
    · exact filterMap_names_nodup (buildDirMap l) (fun k => k ≠ d ∧ fpDir k = d) fpBase
        (fun k => treeIDE (processDirs (buildDirMap l) fuel k)) modeDir (dmKeys_nodup l)
        (fun k hk k' hk' hQ hQ' hnm => by
          rcases dmKeys_image l k hk with ⟨q, hq, hqk⟩
          rcases dmKeys_image l k' hk' with ⟨r, hr, hrk⟩
          rw [← hqk, ← hrk]
          exact hdir q hq r hr (by rw [hqk, hrk, hQ.2, hQ'.2]) (by rw [hqk, hrk, hnm]))
    · intro x hx hx'
      rw [List.map_map] at hx
      have hcomp : (TreeEntry.Name ∘ fun fh : Bytes × Bytes =>
          (⟨fh.1, fh.2, modeFile⟩ : TreeEntry)) = Prod.fst := rfl
      rw [hcomp] at hx
      rcases innerKeys_image l d x hx with ⟨p, hp, hpd, hpf⟩
      rcases List.mem_map.mp hx' with ⟨e, he, hen⟩
      rcases filterMap_entry_image (buildDirMap l) (fun k => k ≠ d ∧ fpDir k = d) fpBase
        (fun k => treeIDE (processDirs (buildDirMap l) fuel k)) modeDir e he
        with ⟨k, hk, hkQ, hkn⟩
      rcases dmKeys_image l k hk with ⟨r, hr, hrk⟩
      exact hnode p hp r hr (by rw [hrk, hpd]; exact hkQ.1) (by rw [hrk, hpd]; exact hkQ.2)
        (hpf.trans (hen.symm.trans (hkn.symm.trans (congrArg fpBase hrk.symm))))

/-- Under the canonicality hypotheses of C5, the root tree returned by
`BuildTreeFromPaths` has pairwise-distinct entry names (in particular the
bogus `""` directory entry never collides with a staged root file). -/
theorem buildtree_names_nodup (l : List (Bytes × Bytes))
    (hroot : ∀ q ∈ l.map Prod.fst, ∀ r ∈ l.map Prod.fst,
      dirKeyOf q = [] → fpDir (dirKeyOf r) = strBytes "." → fileOf q ≠ dirKeyOf r) :
    (((BuildTreeFromPaths l).entries).map TreeEntry.Name).Nodup := by
  simp only [BuildTreeFromPaths, entries_mk]
  rw [List.map_append]
  apply List.Nodup.append
  · exact filterMap_names_nodup (buildDirMap l) (fun k => fpDir k = strBytes ".")
      (fun k => k)
      (fun k => treeIDE (processDirs (buildDirMap l)
        ((l.map (fun ph => ph.1.length + 1)).sum + 1) k)) modeDir (dmKeys_nodup l)
      (fun k _ k' _ _ _ hnm => hnm)
  · rw [List.map_map]
    have hcomp : (TreeEntry.Name ∘ fun fh : Bytes × Bytes =>
        (⟨fh.1, fh.2, modeFile⟩ : TreeEntry)) = Prod.fst := rfl
    rw [hcomp]
    exact innerAt_nodup l []
  · intro x hx hx'
    rcases List.mem_map.mp hx with ⟨e, he, hen⟩
    rcases filterMap_entry_image (buildDirMap l) (fun k => fpDir k = strBytes ".")
      (fun k => k)
      (fun k => treeIDE (processDirs (buildDirMap l)
        ((l.map (fun ph => ph.1.length + 1)).sum + 1) k)) modeDir e he
      with ⟨k, hk, hkQ, hkn⟩
    rcases dmKeys_image l k hk with ⟨r, hr, hrk⟩
    rw [List.map_map] at hx'
    have hcomp : (TreeEntry.Name ∘ fun fh : Bytes × Bytes =>
        (⟨fh.1, fh.2, modeFile⟩ : TreeEntry)) = Prod.fst := rfl
    rw [hcomp] at hx'
    rcases innerKeys_image l [] x hx' with ⟨p, hp, hpd, hpf⟩
    exact hroot p hp r hr hpd (by rw [hrk]; exact hkQ)
      (hpf.trans (hen.symm.trans (hkn.symm.trans hrk.symm)))

theorem processDirs_sort_eq (l₁ l₂ : List (Bytes × Bytes)) (hp : l₁.Perm l₂)
    (hnd : (l₁.map Prod.fst).Nodup)
    (hinj : ∀ q ∈ l₁.map Prod.fst, ∀ r ∈ l₁.map Prod.fst, splitKey q = splitKey r → q = r)
    (hdir : ∀ q ∈ l₁.map Prod.fst, ∀ r ∈ l₁.map Prod.fst,
      fpDir (dirKeyOf q) = fpDir (dirKeyOf r) → fpBase (dirKeyOf q) = fpBase (dirKeyOf r) →
      dirKeyOf q = dirKeyOf r) :
    ∀ fuel d,
      sortEntries (processDirs (buildDirMap l₁) fuel d) =
        sortEntries (processDirs (buildDirMap l₂) fuel d) := by
  have hL := lookup2_buildDirMap_eq l₁ l₂ hp hnd hinj
  intro fuel
  induction fuel with
  | zero => intro d; rfl
  | succ fuel ih =>
    intro d
    apply sortEntries_eq_of_filters
    intro n
    simp only [processDirs]
    rw [List.filter_append, List.filter_append]
    have hfiles :
        ((innerAt (buildDirMap l₁) d).map
          (fun fh => (⟨fh.1, fh.2, modeFile⟩ : TreeEntry))).filter (nameIs n) =
        ((innerAt (buildDirMap l₂) d).map
          (fun fh => (⟨fh.1, fh.2, modeFile⟩ : TreeEntry))).filter (nameIs n) := by
      rw [filter_name_files _ n (innerAt_nodup l₁ d),
        filter_name_files _ n (innerAt_nodup l₂ d),
        lookup2_innerAt, lookup2_innerAt, hL d n]
    rw [hfiles]
    rw [filter_name_filterMap (buildDirMap l₁) n (fun k => k ≠ d ∧ fpDir k = d) fpBase
        (fun k => treeIDE (processDirs (buildDirMap l₁) fuel k)) modeDir,
      filter_name_filterMap (buildDirMap l₂) n (fun k => k ≠ d ∧ fpDir k = d) fpBase
        (fun k => treeIDE (processDirs (buildDirMap l₂) fuel k)) modeDir]
    by_cases hex : ∃ k, k ∈ keysOf (buildDirMap l₁) ∧ ((k ≠ d ∧ fpDir k = d) ∧ fpBase k = n)
    · obtain ⟨k₀, hk₀, hq₀⟩ := hex
      have huniq₁ : ∀ k ∈ keysOf (buildDirMap l₁),
          (k ≠ d ∧ fpDir k = d) ∧ fpBase k = n → k = k₀ := by
        intro k hk hQk
        obtain ⟨p, hpmem, hpk⟩ := dmKeys_image l₁ k hk
        obtain ⟨q, hqmem, hqk⟩ := dmKeys_image l₁ k₀ hk₀
        have := hdir p hpmem q hqmem
          (by rw [hpk, hqk, hQk.1.2, hq₀.1.2])
          (by rw [hpk, hqk, hQk.2, hq₀.2])
        rw [← hpk, ← hqk]
        exact this
      have huniq₂ : ∀ k ∈ keysOf (buildDirMap l₂),
          (k ≠ d ∧ fpDir k = d) ∧ fpBase k = n → k = k₀ :=
        fun k hk hQk => huniq₁ k ((dmKeys_mem_iff l₁ l₂ hp k).mpr hk) hQk
      rw [filterMap_name_single (buildDirMap l₁) n (fun k => k ≠ d ∧ fpDir k = d) fpBase
          (fun k => treeIDE (processDirs (buildDirMap l₁) fuel k)) modeDir k₀
          (dmKeys_nodup l₁) hk₀ hq₀ huniq₁,
        filterMap_name_single (buildDirMap l₂) n (fun k => k ≠ d ∧ fpDir k = d) fpBase
          (fun k => treeIDE (processDirs (buildDirMap l₂) fuel k)) modeDir k₀
          (dmKeys_nodup l₂) ((dmKeys_mem_iff l₁ l₂ hp k₀).mp hk₀) hq₀ huniq₂]
      rw [treeIDE_sort_congr _ _ (ih k₀)]
    · have hnone₁ : ∀ k ∈ keysOf (buildDirMap l₁),
          ¬((k ≠ d ∧ fpDir k = d) ∧ fpBase k = n) :=
        fun k hk hc => hex ⟨k, hk, hc⟩
      have hnone₂ : ∀ k ∈ keysOf (buildDirMap l₂),
          ¬((k ≠ d ∧ fpDir k = d) ∧ fpBase k = n) :=
        fun k hk => hnone₁ k ((dmKeys_mem_iff l₁ l₂ hp k).mpr hk)
      rw [filterMap_name_none (buildDirMap l₁) n (fun k => k ≠ d ∧ fpDir k = d) fpBase
          (fun k => treeIDE (processDirs (buildDirMap l₁) fuel k)) modeDir hnone₁,
        filterMap_name_none (buildDirMap l₂) n (fun k => k ≠ d ∧ fpDir k = d) fpBase
          (fun k => treeIDE (processDirs (buildDirMap l₂) fuel k)) modeDir hnone₂]

/-- C5 (amended): `BuildTreeFromPaths` yields the same root hash on any
two enumerations of the same path→hash map, provided the keys are
canonical enough that (directory key, file name) splits are pairwise
distinct, directory keys are determined by their own (parent, base)
split, and no staged file shares its name with a directory entry of the
same tree node — neither at the root (`hroot`) nor inside a parent
directory (`hnode`). The last two hypotheses confine the claim to maps
for which every node of every tree built carries pairwise-distinct entry
names (`buildtree_names_nodup`, `processDirs_names_nodup`), the domain
on which the modelled `sort.Slice` — unstable in Go — has a unique
correct result. Go-map iteration nondeterminism is modelled by
quantifying over permutations of the enumeration. -/
theorem buildtree_enum_independent (l₁ l₂ : List (Bytes × Bytes)) (hp : l₁.Perm l₂)
    (hnd : (l₁.map Prod.fst).Nodup)
    (hinj : ∀ q ∈ l₁.map Prod.fst, ∀ r ∈ l₁.map Prod.fst, splitKey q = splitKey r → q = r)
    (hdir : ∀ q ∈ l₁.map Prod.fst, ∀ r ∈ l₁.map Prod.fst,
      fpDir (dirKeyOf q) = fpDir (dirKeyOf r) → fpBase (dirKeyOf q) = fpBase (dirKeyOf r) →
      dirKeyOf q = dirKeyOf r)
    (hroot : ∀ q ∈ l₁.map Prod.fst, ∀ r ∈ l₁.map Prod.fst,
      dirKeyOf q = [] → fpDir (dirKeyOf r) = strBytes "." → fileOf q ≠ dirKeyOf r)
    (hnode : ∀ q ∈ l₁.map Prod.fst, ∀ r ∈ l₁.map Prod.fst,
      dirKeyOf r ≠ dirKeyOf q → fpDir (dirKeyOf r) = dirKeyOf q →
      fileOf q ≠ fpBase (dirKeyOf r)) :
    rootID l₁ = rootID l₂ := by
  have hL := lookup2_buildDirMap_eq l₁ l₂ hp hnd hinj
  have hproc := processDirs_sort_eq l₁ l₂ hp hnd hinj hdir
  have hfuel : (l₁.map (fun ph => ph.1.length + 1)).sum =
      (l₂.map (fun ph => ph.1.length + 1)).sum :=
    (hp.map (fun ph => ph.1.length + 1)).sum_eq
  unfold rootID
  apply treeID_sort_congr
  simp only [BuildTreeFromPaths, entries_mk]
  rw [hfuel]
  apply sortEntries_eq_of_filters
  intro n
  rw [List.filter_append, List.filter_append]
  have hfiles :
      ((innerAt (buildDirMap l₁) []).map
        (fun fh => (⟨fh.1, fh.2, modeFile⟩ : TreeEntry))).filter (nameIs n) =
      ((innerAt (buildDirMap l₂) []).map
        (fun fh => (⟨fh.1, fh.2, modeFile⟩ : TreeEntry))).filter (nameIs n) := by
    rw [filter_name_files _ n (innerAt_nodup l₁ []),
      filter_name_files _ n (innerAt_nodup l₂ []),
      lookup2_innerAt, lookup2_innerAt, hL [] n]
  rw [hfiles]
  rw [filter_name_filterMap (buildDirMap l₁) n (fun k => fpDir k = strBytes ".")
      (fun k => k)
      (fun k => treeIDE (processDirs (buildDirMap l₁)
        ((l₂.map (fun ph => ph.1.length + 1)).sum + 1) k)) modeDir,
    filter_name_filterMap (buildDirMap l₂) n (fun k => fpDir k = strBytes ".")
      (fun k => k)
      (fun k => treeIDE (processDirs (buildDirMap l₂)
        ((l₂.map (fun ph => ph.1.length + 1)).sum + 1) k)) modeDir]
  by_cases hex : n ∈ keysOf (buildDirMap l₁) ∧ fpDir n = strBytes "."
  · rw [filterMap_name_single (buildDirMap l₁) n (fun k => fpDir k = strBytes ".")
        (fun k => k)
        (fun k => treeIDE (processDirs (buildDirMap l₁)
          ((l₂.map (fun ph => ph.1.length + 1)).sum + 1) k)) modeDir n
        (dmKeys_nodup l₁) hex.1 ⟨hex.2, rfl⟩ (fun k _ hc => hc.2),
      filterMap_name_single (buildDirMap l₂) n (fun k => fpDir k = strBytes ".")
        (fun k => k)
        (fun k => treeIDE (processDirs (buildDirMap l₂)
          ((l₂.map (fun ph => ph.1.length + 1)).sum + 1) k)) modeDir n
        (dmKeys_nodup l₂) ((dmKeys_mem_iff l₁ l₂ hp n).mp hex.1) ⟨hex.2, rfl⟩
        (fun k _ hc => hc.2)]
    rw [treeIDE_sort_congr _ _ (hproc ((l₂.map (fun ph => ph.1.length + 1)).sum + 1) n)]
  · have hnone₁ : ∀ k ∈ keysOf (buildDirMap l₁),
        ¬(fpDir k = strBytes "." ∧ k = n) :=
      fun k hk hc => hex ⟨hc.2 ▸ hk, hc.2 ▸ hc.1⟩
    have hnone₂ : ∀ k ∈ keysOf (buildDirMap l₂),
        ¬(fpDir k = strBytes "." ∧ k = n) :=
      fun k hk => hnone₁ k ((dmKeys_mem_iff l₁ l₂ hp k).mpr hk)
    rw [filterMap_name_none (buildDirMap l₁) n (fun k => fpDir k = strBytes ".")
        (fun k => k)
        (fun k => treeIDE (processDirs (buildDirMap l₁)
          ((l₂.map (fun ph => ph.1.length + 1)).sum + 1) k)) modeDir hnone₁,
      filterMap_name_none (buildDirMap l₂) n (fun k => fpDir k = strBytes ".")
        (fun k => k)
        (fun k => treeIDE (processDirs (buildDirMap l₂)
          ((l₂.map (fun ph => ph.1.length + 1)).sum + 1) k)) modeDir hnone₂]

/-- C5 witness: two enumerations of a canonical two-file map. -/
theorem buildtree_enum_independent_wit :
    rootID [(strBytes "a/b", strBytes "h1"), (strBytes "c", strBytes "h2")] =
      rootID [(strBytes "c", strBytes "h2"), (strBytes "a/b", strBytes "h1")] :=
  buildtree_enum_independent _ _ (by decide) (by decide) (by decide) (by decide)
    (by decide) (by decide)

/-- C5 counterexample: two distinct keys that clean to the same
(directory, file) split — `"a/b"` and `"./a/b"` — make the root hash
depend on the enumeration order of the map. -/
theorem buildtree_enum_dependent_cex :
    rootID [(strBytes "a/b", strBytes "h1"), (strBytes "./a/b", strBytes "h2")] ≠
      rootID [(strBytes "./a/b", strBytes "h2"), (strBytes "a/b", strBytes "h1")] := by
  decide

end Yag
